import Mathlib

/-!
Verification of the BreakCheck core engine (`src/analyzer.py`): public API
surface extraction, structural diff and severity aggregation. Python dicts
are modelled as association lists with insert-or-update semantics; the AST
fragment the analyzer reads (`ast.FunctionDef`, `ast.ClassDef`,
`ast.AnnAssign`, argument lists, unparsed annotation/default texts) is
modelled as plain inductive data. The module `surface` (imported by
`analyzer.py` as `discover_public_api`) is not part of the repository's
files; it is modelled from the specification, see `discover_public_api`.
-/

namespace BreakCheck

/-- Parameter record as built by `_parse_fn`: name, annotation text
(empty = untyped) and default expression text (empty = no default). -/
structure Param where
  name : String
  ann : String
  default : String
deriving DecidableEq, Repr

/-- FunctionSignature: the dict returned by `_parse_fn`. -/
structure FnSig where
  params : List Param
  ret : String
deriving DecidableEq, Repr

/-- ClassSignature: the dict returned by `_parse_cls`. `methods` models a
Python dict (association list in insertion order). -/
structure ClsSig where
  methods : List (String × FnSig)
  attrs : List String
deriving DecidableEq, Repr

/-- ApiSurface: the snapshot dict built by `extract_api`. -/
structure ApiSurface where
  functions : List (String × FnSig)
  classes : List (String × ClsSig)
deriving DecidableEq, Repr

/-- Change record built by `_ch`. -/
structure Change where
  kind : String
  symbol : String
  detail : String
  level : String
deriving DecidableEq, Repr

/-- Python dict read `d[k]` / `k in d`: the value at the first entry whose
key is `k`, `none` when absent. -/
def dictLookup {α : Type} : List (String × α) → String → Option α
  | [], _ => none
  | e :: d, k => if e.1 = k then some e.2 else dictLookup d k

/-- Python dict write `d[k] = v`: update the entry in place when the key is
present, append otherwise. -/
def dictInsert {α : Type} : List (String × α) → String → α → List (String × α)
  | [], k, v => [(k, v)]
  | e :: d, k, v => if e.1 = k then (k, v) :: d else e :: dictInsert d k v

/-- Override directive attached to a declaration's source line (spec §6:
two fixed trailing-comment tokens), or none. -/
inductive Directive where
  | noDir : Directive
  | ignoreDir : Directive
  | publicDir : Directive
deriving DecidableEq, Repr

/-- One entry of `ast.arguments.args`: the argument name and the unparsed
annotation text when an annotation is present. -/
structure Arg where
  arg : String
  annot : Option String
deriving DecidableEq, Repr

/-- The `ast.arguments` fields the analyzer can see. `defaults` holds the
unparsed default expressions, aligned to the trailing entries of `args`. -/
structure Args where
  args : List Arg
  defaults : List String
  kwonlyargs : List Arg
  vararg : Option Arg
  kwarg : Option Arg
deriving DecidableEq, Repr

/-- An `ast.FunctionDef`: name, arguments, unparsed return annotation when
present, and the directive on its declaring line. -/
structure FunctionDef where
  name : String
  args : Args
  returns : Option String
  directive : Directive
deriving DecidableEq, Repr

/-- A statement of a class body as `_parse_cls` distinguishes them: a
method definition, an `ast.AnnAssign` whose target is a plain name (the
target's identifier), or any other statement (including an `AnnAssign`
with a non-name target, which the loop skips). -/
inductive ClsItem where
  | fn : FunctionDef → ClsItem
  | annAssign : String → ClsItem
  | other : ClsItem
deriving DecidableEq, Repr

/-- An `ast.ClassDef`: name, body and the directive on its declaring line. -/
structure ClassDef where
  name : String
  body : List ClsItem
  directive : Directive
deriving DecidableEq, Repr

/-- A top-level statement as Surface Discovery and `extract_api`
distinguish them: a function or class declaration, a literal export-list
assignment, a from-import (relative flag, imported names, directive on
the import line), or any other statement. A non-literal export list is not an
`exportList` node (spec §6: it is treated as absent). -/
inductive TopStmt where
  | fn : FunctionDef → TopStmt
  | cls : ClassDef → TopStmt
  | exportList : List String → TopStmt
  | importFrom : Bool → List String → Directive → TopStmt
  | other : TopStmt
deriving DecidableEq, Repr

/-- A parsed module: its top-level statements in source order. -/
structure Module where
  body : List TopStmt
deriving DecidableEq, Repr

/-- One source file as `extract_api` sees it after the parse step: the
dotted module path derived from its relative path, the file name, and the
parsed tree. Directory traversal, path-to-module derivation and the parse
call itself (lines 13-16 of `analyzer.py`) stay outside the embedding;
files arrive in traversal order. -/
structure ModFile where
  mod : String
  filename : String
  tree : Module
deriving DecidableEq, Repr

/-- Python `s.startswith(pre)`, computed on the character lists. -/
def startswith (s pre : String) : Bool :=
  pre.data.isPrefixOf s.data

/-- Python `s.endswith(post)`, computed on the character lists. -/
def endswith (s post : String) : Bool :=
  post.data.reverse.isPrefixOf s.data.reverse

/-- Assignment `l[n] = f l[n]` on a list, identity when out of range. -/
def listModify {α : Type} (f : α → α) : Nat → List α → List α
  | _, [] => []
  | 0, a :: l => f a :: l
  | n + 1, a :: l => a :: listModify f n l

/-- One iteration of the defaults loop of `_parse_fn` (analyzer.py lines
36-39): `idx = len(params) - len(defaults) + i`, and the assignment
`params[idx]["default"] = unparse(d)` happens only under the source's
`0 <= idx < len(params)` guard. -/
def setTrailingDefault (nd : Nat) (ps : List Param) : Nat × String → List Param
  | (i, d) =>
    let idx : Int := (ps.length : Int) - (nd : Int) + (i : Int)
    if 0 ≤ idx ∧ idx < (ps.length : Int) then
      listModify (fun p => { p with default := d }) idx.toNat ps
    else ps

/-- Translation of `_parse_fn` (analyzer.py lines 29-41): collect the
positional `args.args` entries except any named `self`, then align
`args.defaults` to the trailing collected parameters. -/
def _parse_fn (node : FunctionDef) : FnSig :=
  let params0 := node.args.args.filterMap fun a =>
    if a.arg = "self" then none
    else some { name := a.arg, ann := a.annot.getD "", default := "" }
  let params := node.args.defaults.enum.foldl
    (setTrailingDefault node.args.defaults.length) params0
  { params := params, ret := node.returns.getD "" }

/-- One iteration of the class-body loop of `_parse_cls` (analyzer.py
lines 46-50). -/
def _parse_cls_step (acc : ClsSig) (item : ClsItem) : ClsSig :=
  match item with
  | .fn f =>
      if startswith f.name "_" then acc
      else { acc with methods := dictInsert acc.methods f.name (_parse_fn f) }
  | .annAssign t => { acc with attrs := acc.attrs ++ [t] }
  | .other => acc

/-- Translation of `_parse_cls` (analyzer.py lines 44-51). -/
def _parse_cls (node : ClassDef) : ClsSig :=
  node.body.foldl _parse_cls_step { methods := [], attrs := [] }

/-- Modelled from the spec: `discover_public_api` (module `surface`, which
`analyzer.py` imports but which is absent from the repository's files). Spec
§4.2: per declared top-level name the precedence is ignore directive
(excluded) over public directive (included) over export-list membership
(authoritative when a literal export list is bound) over the
underscore-naming convention; spec §4.2 re-export propagation: for an
aggregator module (its file named `__init__.py`) every name of a relative
from-import is additionally public unless the import line carries an
ignore directive. The last literal export-list assignment of the module
body is the binding one. -/
def discover_public_api (tree : Module) (filename : String) : List String :=
  let exports : Option (List String) :=
    (tree.body.filterMap fun st =>
      match st with
      | .exportList xs => some xs
      | _ => none).getLast?
  let verdict : String → Directive → Bool := fun name d =>
    match d with
    | .ignoreDir => false
    | .publicDir => true
    | .noDir =>
        match exports with
        | some xs => decide (name ∈ xs)
        | none => !(startswith name "_")
  (tree.body.filterMap fun st =>
    match st with
    | .fn f => if verdict f.name f.directive then some f.name else none
    | .cls c => if verdict c.name c.directive then some c.name else none
    | _ => none)
  ++ (if endswith filename "__init__.py" then
        tree.body.flatMap fun st =>
          match st with
          | .importFrom rel names d =>
              if rel ∧ d ≠ .ignoreDir then names else []
          | _ => []
      else [])

/-- One iteration of `extract_api`'s inner loop (analyzer.py lines 18-25):
functions enter the snapshot exactly when their name is public; classes
enter when their name is public, or — the fallback branch of line 24 —
whenever their name does not start with an underscore. -/
def extract_step (mod : String) (public_names : List String)
    (s : ApiSurface) (node : TopStmt) : ApiSurface :=
  match node with
  | .fn f =>
      if f.name ∈ public_names then
        { s with functions :=
            dictInsert s.functions (mod ++ "." ++ f.name) (_parse_fn f) }
      else s
  | .cls c =>
      if c.name ∈ public_names then
        { s with classes :=
            dictInsert s.classes (mod ++ "." ++ c.name) (_parse_cls c) }
      else if !(startswith c.name "_") then
        { s with classes :=
            dictInsert s.classes (mod ++ "." ++ c.name) (_parse_cls c) }
      else s
  | _ => s

/-- Per-module body of `extract_api`'s loop (analyzer.py lines 17-25). -/
def extract_module (s : ApiSurface) (mf : ModFile) : ApiSurface :=
  let public_names := discover_public_api mf.tree mf.filename
  mf.tree.body.foldl (extract_step mf.mod public_names) s

/-- Translation of `extract_api` (analyzer.py lines 10-26) over the parsed
source files in traversal order. -/
def extract_api (files : List ModFile) : ApiSurface :=
  files.foldl extract_module { functions := [], classes := [] }

/-- Translation of `_ch` (analyzer.py lines 54-55). -/
def _ch (kind sym detail level : String) : Change :=
  { kind := kind, symbol := sym, detail := detail, level := level }

/-- Translation of the dict comprehension on a parameter list in
`_diff_fn` (lines 82-83). -/
def paramDict (ps : List Param) : List (String × Param) :=
  ps.foldl (fun d p => dictInsert d p.name p) []

/-- Translation of `_diff_fn` (analyzer.py lines 80-102). -/
def _diff_fn (sym : String) (old new : FnSig) : List Change :=
  let op := paramDict old.params
  let np := paramDict new.params
  (op.flatMap fun e =>
    match dictLookup np e.1 with
    | none =>
        [_ch "param_removed" (sym ++ "(" ++ e.1 ++ ")")
          ("Param '" ++ e.1 ++ "' removed from " ++ sym) "major"]
    | some q =>
        (if e.2.ann ≠ "" ∧ q.ann ≠ "" ∧ e.2.ann ≠ q.ann then
          [_ch "type_changed" (sym ++ "(" ++ e.1 ++ ")")
            ("Type of '" ++ e.1 ++ "': " ++ e.2.ann ++ " -> " ++ q.ann) "major"]
        else [])
        ++
        (if e.2.default ≠ "" ∧ q.default = "" then
          [_ch "default_removed" (sym ++ "(" ++ e.1 ++ ")")
            ("Default of '" ++ e.1 ++ "' removed (now required)") "major"]
        else if e.2.default ≠ "" ∧ q.default ≠ "" ∧ e.2.default ≠ q.default then
          [_ch "default_changed" (sym ++ "(" ++ e.1 ++ ")")
            ("Default of '" ++ e.1 ++ "' changed") "patch"]
        else []))
  ++ (np.filterMap fun e =>
      if dictLookup op e.1 = none then
        let lv := if e.2.default ≠ "" then "minor" else "major"
        let tag := if lv = "minor" then "optional" else "REQUIRED"
        some (_ch "param_added" (sym ++ "(" ++ e.1 ++ ")")
          ("Param '" ++ e.1 ++ "' added (" ++ tag ++ ")") lv)
      else none)
  ++ (if old.ret ≠ "" ∧ new.ret ≠ "" ∧ old.ret ≠ new.ret then
      [_ch "return_type_changed" sym
        ("Return: " ++ old.ret ++ " -> " ++ new.ret) "major"]
    else [])

/-- Translation of `_diff_cls` (analyzer.py lines 105-118). -/
def _diff_cls (sym : String) (old new : ClsSig) : List Change :=
  (old.attrs.filterMap fun a =>
    if a ∈ new.attrs then none
    else some (_ch "attr_removed" (sym ++ "." ++ a)
      ("Attribute '" ++ a ++ "' removed from " ++ sym) "major"))
  ++ (old.methods.flatMap fun e =>
      match dictLookup new.methods e.1 with
      | none =>
          [_ch "method_removed" (sym ++ "." ++ e.1)
            ("Method '" ++ e.1 ++ "' removed from " ++ sym) "major"]
      | some w => _diff_fn (sym ++ "." ++ e.1) e.2 w)
  ++ (new.methods.filterMap fun e =>
      if dictLookup old.methods e.1 = none then
        some (_ch "method_added" (sym ++ "." ++ e.1)
          ("Method '" ++ e.1 ++ "' added to " ++ sym) "minor")
      else none)

/-- Translation of `diff_api` (analyzer.py lines 58-77). -/
def diff_api (old new : ApiSurface) : List Change :=
  (old.functions.flatMap fun e =>
    match dictLookup new.functions e.1 with
    | none => [_ch "function_removed" e.1 ("Removed: " ++ e.1) "major"]
    | some w => _diff_fn e.1 e.2 w)
  ++ (new.functions.filterMap fun e =>
      if dictLookup old.functions e.1 = none then
        some (_ch "function_added" e.1 ("Added: " ++ e.1) "minor")
      else none)
  ++ (old.classes.flatMap fun e =>
      match dictLookup new.classes e.1 with
      | none => [_ch "class_removed" e.1 ("Removed: " ++ e.1) "major"]
      | some w => _diff_cls e.1 e.2 w)
  ++ (new.classes.filterMap fun e =>
      if dictLookup old.classes e.1 = none then
        some (_ch "class_added" e.1 ("Added: " ++ e.1) "minor")
      else none)

/-- Translation of the dict `LEVEL_RANK` (analyzer.py line 7); `none`
models the `KeyError` a lookup of any other string raises. -/
def LEVEL_RANK (l : String) : Option Nat :=
  if l = "patch" then some 0
  else if l = "minor" then some 1
  else if l = "major" then some 2
  else none

/-- One comparison step of Python's `max(..., key=...)`: keep the current
maximum unless the next key is strictly greater, so the first maximal
element wins; `none` propagates a failed rank lookup. -/
def maxStep (acc : Option String) (x : String) : Option String := do
  let b ← acc
  let rb ← LEVEL_RANK b
  let rx ← LEVEL_RANK x
  pure (if rb < rx then x else b)

/-- Translation of `max_level` (analyzer.py lines 121-125): `"patch"` for
an empty change list, otherwise the first `level` of maximal rank; `none`
models the `KeyError` raised on a level outside `LEVEL_RANK`. -/
def max_level (changes : List Change) : Option String :=
  match changes.map (fun c => c.level) with
  | [] => some "patch"
  | l :: ls => ls.foldl maxStep (if (LEVEL_RANK l).isSome then some l else none)

/-! Association-list dictionary lemmas. -/

/-- Keys of the association list are pairwise distinct, the invariant every
Python dict enjoys. -/
def NodupKeys {α : Type} (d : List (String × α)) : Prop :=
  d.Pairwise (fun a b => a.1 ≠ b.1)

theorem mem_dictInsert {α : Type} {d : List (String × α)} {k : String} {v : α}
    {e : String × α} : e ∈ dictInsert d k v → e ∈ d ∨ e = (k, v) := by
  induction d with
  | nil => intro h; simpa [dictInsert] using h
  | cons a d ih =>
      intro h
      by_cases hk : a.1 = k
      · simp only [dictInsert, if_pos hk] at h
        rcases List.mem_cons.mp h with h | h
        · exact Or.inr h
        · exact Or.inl (List.mem_cons_of_mem _ h)
      · simp only [dictInsert, if_neg hk] at h
        rcases List.mem_cons.mp h with h | h
        · exact Or.inl (h ▸ List.mem_cons_self a d)
        · rcases ih h with h' | h'
          · exact Or.inl (List.mem_cons_of_mem _ h')
          · exact Or.inr h'

theorem nodupKeys_dictInsert {α : Type} {d : List (String × α)} (k : String)
    (v : α) : NodupKeys d → NodupKeys (dictInsert d k v) := by
  induction d with
  | nil => intro _; simp [dictInsert, NodupKeys]
  | cons a d ih =>
      intro h
      rw [NodupKeys, List.pairwise_cons] at h
      by_cases hk : a.1 = k
      · rw [NodupKeys, dictInsert, if_pos hk, List.pairwise_cons]
        exact ⟨fun b hb => hk ▸ h.1 b hb, h.2⟩
      · rw [NodupKeys, dictInsert, if_neg hk, List.pairwise_cons]
        refine ⟨fun b hb => ?_, ih h.2⟩
        rcases mem_dictInsert hb with hb' | hb'
        · exact h.1 b hb'
        · rw [hb']; exact hk

theorem dictLookup_dictInsert {α : Type} (d : List (String × α)) (k : String)
    (v : α) (k' : String) :
    dictLookup (dictInsert d k v) k' = if k = k' then some v else dictLookup d k' := by
  induction d with
  | nil => by_cases h : k = k' <;> simp [dictInsert, dictLookup, h]
  | cons a d ih =>
      by_cases hk : a.1 = k <;> by_cases hk' : k = k' <;>
        by_cases ha : a.1 = k' <;>
        simp_all [dictInsert, dictLookup]

theorem mem_of_dictLookup_eq_some {α : Type} {d : List (String × α)}
    {k : String} {v : α} : dictLookup d k = some v → (k, v) ∈ d := by
  induction d with
  | nil => intro h; simp [dictLookup] at h
  | cons a d ih =>
      intro h
      by_cases ha : a.1 = k
      · rw [dictLookup, if_pos ha] at h
        injection h with h
        exact List.mem_cons.mpr (Or.inl (by cases a; simp_all))
      · rw [dictLookup, if_neg ha] at h
        exact List.mem_cons_of_mem _ (ih h)

theorem dictLookup_ne_none_of_mem {α : Type} {d : List (String × α)}
    {e : String × α} : e ∈ d → dictLookup d e.1 ≠ none := by
  induction d with
  | nil => intro h; simp at h
  | cons a d ih =>
      intro h
      by_cases ha : a.1 = e.1
      · simp [dictLookup, ha]
      · rcases List.mem_cons.mp h with h' | h'
        · exact absurd (h' ▸ rfl) ha
        · simpa [dictLookup, ha] using ih h'

theorem dictLookup_eq_some_of_mem_nodup {α : Type} {d : List (String × α)}
    {k : String} {v : α} : NodupKeys d → (k, v) ∈ d → dictLookup d k = some v := by
  induction d with
  | nil => intro _ hm; simp at hm
  | cons a d ih =>
      intro hn hm
      rw [NodupKeys, List.pairwise_cons] at hn
      rcases List.mem_cons.mp hm with h' | h'
      · rw [← h']
        simp [dictLookup]
      · have ha : a.1 ≠ k := by
          have := hn.1 (k, v) h'
          simpa using this
        rw [dictLookup, if_neg ha]
        exact ih hn.2 h'

theorem nodupKeys_paramDict_aux (ps : List Param) (d : List (String × Param))
    (h : NodupKeys d) :
    NodupKeys (ps.foldl (fun d p => dictInsert d p.name p) d) := by
  induction ps generalizing d with
  | nil => simpa
  | cons p ps ih => exact ih _ (nodupKeys_dictInsert p.name p h)

theorem nodupKeys_paramDict (ps : List Param) : NodupKeys (paramDict ps) :=
  nodupKeys_paramDict_aux ps [] (by simp [NodupKeys])

theorem mem_paramDict_name (ps : List Param) :
    ∀ e ∈ paramDict ps, e.1 = e.2.name ∧ e.2 ∈ ps := by
  have aux : ∀ (qs : List Param) (d : List (String × Param)),
      (∀ e ∈ d, e.1 = e.2.name ∧ e.2 ∈ ps) → (∀ q ∈ qs, q ∈ ps) →
      ∀ e ∈ qs.foldl (fun d p => dictInsert d p.name p) d,
        e.1 = e.2.name ∧ e.2 ∈ ps := by
    intro qs
    induction qs with
    | nil => intro d hd _ e he; exact hd e he
    | cons q qs ih =>
        intro d hd hq e he
        refine ih _ ?_ (fun r hr => hq r (List.mem_cons_of_mem _ hr)) e he
        intro e' he'
        rcases mem_dictInsert he' with h' | h'
        · exact hd e' h'
        · rw [h']; exact ⟨rfl, hq q (List.mem_cons_self q qs)⟩
  exact aux ps [] (by simp) (fun q hq => hq)

/-! Idempotence of the diff. -/

theorem _diff_fn_self (sym : String) (v : FnSig) : _diff_fn sym v v = [] := by
  have hn := nodupKeys_paramDict v.params
  rw [_diff_fn]
  simp only
  rw [List.append_eq_nil, List.append_eq_nil]
  refine ⟨⟨List.flatMap_eq_nil_iff.mpr fun e he => ?_,
    List.filterMap_eq_nil_iff.mpr fun e he => ?_⟩, ?_⟩
  · have h1 : dictLookup (paramDict v.params) e.1 = some e.2 :=
      dictLookup_eq_some_of_mem_nodup hn (by rw [Prod.mk.eta]; exact he)
    rw [h1]
    by_cases hd : e.2.default = "" <;> simp [hd]
  · have h1 : dictLookup (paramDict v.params) e.1 ≠ none :=
      dictLookup_ne_none_of_mem he
    simp [h1]
  · simp

theorem _diff_cls_self (sym : String) (c : ClsSig) (h : NodupKeys c.methods) :
    _diff_cls sym c c = [] := by
  rw [_diff_cls]
  rw [List.append_eq_nil, List.append_eq_nil]
  refine ⟨⟨List.filterMap_eq_nil_iff.mpr fun a ha => ?_,
    List.flatMap_eq_nil_iff.mpr fun e he => ?_⟩,
    List.filterMap_eq_nil_iff.mpr fun e he => ?_⟩
  · simp [ha]
  · have h1 : dictLookup c.methods e.1 = some e.2 :=
      dictLookup_eq_some_of_mem_nodup h (by rw [Prod.mk.eta]; exact he)
    rw [h1]
    exact _diff_fn_self _ _
  · have h1 : dictLookup c.methods e.1 ≠ none :=
      dictLookup_ne_none_of_mem he
    simp [h1]

/-- Well-formedness a Python-built ApiSurface always has: its `functions`,
`classes` and per-class `methods` dicts carry no duplicate key (spec §3
invariants). -/
def SurfaceWF (s : ApiSurface) : Prop :=
  NodupKeys s.functions ∧ NodupKeys s.classes ∧
    ∀ e ∈ s.classes, NodupKeys e.2.methods

/-- C8: for every well-formed ApiSurface snapshot `s`, `diff_api s s`
returns the empty list (spec §8, idempotence). -/
theorem diff_api_self_empty (s : ApiSurface) (h : SurfaceWF s) :
    diff_api s s = [] := by
  obtain ⟨hf, hc, hm⟩ := h
  rw [diff_api]
  rw [List.append_eq_nil, List.append_eq_nil, List.append_eq_nil]
  refine ⟨⟨⟨List.flatMap_eq_nil_iff.mpr fun e he => ?_,
    List.filterMap_eq_nil_iff.mpr fun e he => ?_⟩,
    List.flatMap_eq_nil_iff.mpr fun e he => ?_⟩,
    List.filterMap_eq_nil_iff.mpr fun e he => ?_⟩
  · have h1 : dictLookup s.functions e.1 = some e.2 :=
      dictLookup_eq_some_of_mem_nodup hf (by rw [Prod.mk.eta]; exact he)
    rw [h1]
    exact _diff_fn_self _ _
  · have h1 : dictLookup s.functions e.1 ≠ none :=
      dictLookup_ne_none_of_mem he
    simp [h1]
  · have h1 : dictLookup s.classes e.1 = some e.2 :=
      dictLookup_eq_some_of_mem_nodup hc (by rw [Prod.mk.eta]; exact he)
    rw [h1]
    exact _diff_cls_self _ _ (hm e he)
  · have h1 : dictLookup s.classes e.1 ≠ none :=
      dictLookup_ne_none_of_mem he
    simp [h1]

/-- Witness for C8 at a concrete snapshot holding one function (with an
annotated, defaulted parameter) and one class with a method and an
attribute. -/
theorem diff_api_self_empty_witness :
    SurfaceWF ⟨[("m.f", ⟨[⟨"x", "int", "1"⟩], "str"⟩)],
               [("m.C", ⟨[("go", ⟨[⟨"n", "int", ""⟩], "bool"⟩)], ["a"]⟩)]⟩ ∧
    diff_api ⟨[("m.f", ⟨[⟨"x", "int", "1"⟩], "str"⟩)],
              [("m.C", ⟨[("go", ⟨[⟨"n", "int", ""⟩], "bool"⟩)], ["a"]⟩)]⟩
             ⟨[("m.f", ⟨[⟨"x", "int", "1"⟩], "str"⟩)],
              [("m.C", ⟨[("go", ⟨[⟨"n", "int", ""⟩], "bool"⟩)], ["a"]⟩)]⟩ = [] := by
  constructor
  · refine ⟨?_, ?_, ?_⟩ <;> simp [NodupKeys, SurfaceWF]
  · exact diff_api_self_empty _ ⟨by simp [NodupKeys],
      by simp [NodupKeys], by simp [NodupKeys]⟩

/-! Existence checks of the diff are computed independently in both
directions. -/

/-- C5: every function/class symbol present only in `old` produces its
`*_removed` Change at level major, and every symbol present only in `new`
produces its `*_added` Change at level minor, all in the same
`diff_api old new` list. -/
theorem diff_api_reports_removals_additions (old new : ApiSurface) :
    (∀ k v, (k, v) ∈ old.functions → dictLookup new.functions k = none →
      _ch "function_removed" k ("Removed: " ++ k) "major" ∈ diff_api old new) ∧
    (∀ k v, (k, v) ∈ new.functions → dictLookup old.functions k = none →
      _ch "function_added" k ("Added: " ++ k) "minor" ∈ diff_api old new) ∧
    (∀ k v, (k, v) ∈ old.classes → dictLookup new.classes k = none →
      _ch "class_removed" k ("Removed: " ++ k) "major" ∈ diff_api old new) ∧
    (∀ k v, (k, v) ∈ new.classes → dictLookup old.classes k = none →
      _ch "class_added" k ("Added: " ++ k) "minor" ∈ diff_api old new) := by
  refine ⟨fun k v hm hl => ?_, fun k v hm hl => ?_,
    fun k v hm hl => ?_, fun k v hm hl => ?_⟩
  · rw [diff_api]
    exact List.mem_append.mpr (Or.inl (List.mem_append.mpr (Or.inl
      (List.mem_append.mpr (Or.inl
        (List.mem_flatMap.mpr ⟨(k, v), hm, by simp [hl]⟩))))))
  · rw [diff_api]
    exact List.mem_append.mpr (Or.inl (List.mem_append.mpr (Or.inl
      (List.mem_append.mpr (Or.inr
        (List.mem_filterMap.mpr ⟨(k, v), hm, by simp [hl]⟩))))))
  · rw [diff_api]
    exact List.mem_append.mpr (Or.inl (List.mem_append.mpr (Or.inr
      (List.mem_flatMap.mpr ⟨(k, v), hm, by simp [hl]⟩))))
  · rw [diff_api]
    exact List.mem_append.mpr (Or.inr
      (List.mem_filterMap.mpr ⟨(k, v), hm, by simp [hl]⟩))

/-- Witness for C5: spec §8 Scenario A, where a removal and an addition of
different names occur in the same diff. -/
theorem diff_api_reports_removals_additions_witness :
    _ch "function_removed" "api.hello" ("Removed: " ++ "api.hello") "major"
      ∈ diff_api ⟨[("api.hello", ⟨[⟨"name", "str", ""⟩], "str"⟩)], []⟩
                 ⟨[("api.goodbye", ⟨[], "None"⟩)], []⟩ ∧
    _ch "function_added" "api.goodbye" ("Added: " ++ "api.goodbye") "minor"
      ∈ diff_api ⟨[("api.hello", ⟨[⟨"name", "str", ""⟩], "str"⟩)], []⟩
                 ⟨[("api.goodbye", ⟨[], "None"⟩)], []⟩ :=
  ⟨(diff_api_reports_removals_additions
      ⟨[("api.hello", ⟨[⟨"name", "str", ""⟩], "str"⟩)], []⟩
      ⟨[("api.goodbye", ⟨[], "None"⟩)], []⟩).1
    "api.hello" ⟨[⟨"name", "str", ""⟩], "str"⟩ (by decide) (by decide),
   (diff_api_reports_removals_additions
      ⟨[("api.hello", ⟨[⟨"name", "str", ""⟩], "str"⟩)], []⟩
      ⟨[("api.goodbye", ⟨[], "None"⟩)], []⟩).2.1
    "api.goodbye" ⟨[], "None"⟩ (by decide) (by decide)⟩

/-! Unknown annotations never trigger type-mismatch changes. -/

/-- C7: a `type_changed` Change arises only for a parameter present in
both signatures with two non-empty, differing annotation texts, and a
`return_type_changed` Change only when both return annotations are
non-empty and differ; an empty annotation on either side never produces
one. -/
theorem type_changed_requires_both_annotations (sym : String) (o w : FnSig) :
    ∀ c ∈ _diff_fn sym o w,
      (c.kind = "type_changed" → ∃ n p q,
        dictLookup (paramDict o.params) n = some p ∧
        dictLookup (paramDict w.params) n = some q ∧
        p.ann ≠ "" ∧ q.ann ≠ "" ∧ p.ann ≠ q.ann ∧
        c.symbol = sym ++ "(" ++ n ++ ")") ∧
      (c.kind = "return_type_changed" → o.ret ≠ "" ∧ w.ret ≠ "" ∧ o.ret ≠ w.ret) := by
  intro c hc
  simp only [_diff_fn] at hc
  rcases List.mem_append.mp hc with hc | hc
  · rcases List.mem_append.mp hc with hc | hc
    · obtain ⟨e, he, hce⟩ := List.mem_flatMap.mp hc
      cases hq : dictLookup (paramDict w.params) e.1 with
      | none =>
          rw [hq] at hce
          simp only [List.mem_singleton] at hce
          subst hce
          exact ⟨fun h => by simp [_ch] at h, fun h => by simp [_ch] at h⟩
      | some q =>
          rw [hq] at hce
          rcases List.mem_append.mp hce with hce | hce
          · by_cases hA : e.2.ann ≠ "" ∧ q.ann ≠ "" ∧ e.2.ann ≠ q.ann
            · rw [if_pos hA] at hce
              simp only [List.mem_singleton] at hce
              subst hce
              refine ⟨fun _ => ⟨e.1, e.2, q, ?_, hq, hA.1, hA.2.1, hA.2.2, rfl⟩,
                fun h => by simp [_ch] at h⟩
              exact dictLookup_eq_some_of_mem_nodup (nodupKeys_paramDict o.params)
                (by rw [Prod.mk.eta]; exact he)
            · rw [if_neg hA] at hce
              simp at hce
          · by_cases hB : e.2.default ≠ "" ∧ q.default = ""
            · rw [if_pos hB] at hce
              simp only [List.mem_singleton] at hce
              subst hce
              exact ⟨fun h => by simp [_ch] at h, fun h => by simp [_ch] at h⟩
            · rw [if_neg hB] at hce
              by_cases hC : e.2.default ≠ "" ∧ q.default ≠ "" ∧ e.2.default ≠ q.default
              · rw [if_pos hC] at hce
                simp only [List.mem_singleton] at hce
                subst hce
                exact ⟨fun h => by simp [_ch] at h, fun h => by simp [_ch] at h⟩
              · rw [if_neg hC] at hce
                simp at hce
    · obtain ⟨e, he, hce⟩ := List.mem_filterMap.mp hc
      by_cases hl : dictLookup (paramDict o.params) e.1 = none
      · rw [if_pos hl] at hce
        injection hce with hce
        subst hce
        exact ⟨fun h => by simp [_ch] at h, fun h => by simp [_ch] at h⟩
      · rw [if_neg hl] at hce
        simp at hce
  · by_cases hR : o.ret ≠ "" ∧ w.ret ≠ "" ∧ o.ret ≠ w.ret
    · rw [if_pos hR] at hc
      simp only [List.mem_singleton] at hc
      subst hc
      exact ⟨fun h => by simp [_ch] at h, fun _ => hR⟩
    · rw [if_neg hR] at hc
      simp at hc

/-- Witness for C7 at a concrete return-annotation change. -/
theorem type_changed_requires_both_annotations_witness :
    FnSig.ret ⟨[], "int"⟩ ≠ "" ∧ FnSig.ret ⟨[], "str"⟩ ≠ "" ∧
    FnSig.ret ⟨[], "int"⟩ ≠ FnSig.ret ⟨[], "str"⟩ :=
  (type_changed_requires_both_annotations "f" ⟨[], "int"⟩ ⟨[], "str"⟩
    (_ch "return_type_changed" "f" ("Return: " ++ "int" ++ " -> " ++ "str") "major")
    (by decide)).2 (by decide)

/-! String helpers for reasoning about change symbols. -/

theorem append_paren_inj {sym a b : String}
    (h : sym ++ "(" ++ a ++ ")" = sym ++ "(" ++ b ++ ")") : a = b := by
  have hd := congrArg String.data h
  simp only [String.data_append, List.append_assoc] at hd
  have h1 := List.append_cancel_left hd
  have h2 := List.append_cancel_left h1
  have h3 := List.append_cancel_right h2
  exact String.ext h3

/-- Complete description of the elements of `_diff_fn sym o w`: each
change is one of the six emission sites, together with the dict facts its
guards establish. -/
theorem _diff_fn_mem_char (sym : String) (o w : FnSig) :
    ∀ c ∈ _diff_fn sym o w,
      (∃ n p, dictLookup (paramDict o.params) n = some p ∧
        dictLookup (paramDict w.params) n = none ∧
        c = _ch "param_removed" (sym ++ "(" ++ n ++ ")")
          ("Param '" ++ n ++ "' removed from " ++ sym) "major")
    ∨ (∃ n p q, dictLookup (paramDict o.params) n = some p ∧
        dictLookup (paramDict w.params) n = some q ∧
        (p.ann ≠ "" ∧ q.ann ≠ "" ∧ p.ann ≠ q.ann) ∧
        c = _ch "type_changed" (sym ++ "(" ++ n ++ ")")
          ("Type of '" ++ n ++ "': " ++ p.ann ++ " -> " ++ q.ann) "major")
    ∨ (∃ n p q, dictLookup (paramDict o.params) n = some p ∧
        dictLookup (paramDict w.params) n = some q ∧
        (p.default ≠ "" ∧ q.default = "") ∧
        c = _ch "default_removed" (sym ++ "(" ++ n ++ ")")
          ("Default of '" ++ n ++ "' removed (now required)") "major")
    ∨ (∃ n p q, dictLookup (paramDict o.params) n = some p ∧
        dictLookup (paramDict w.params) n = some q ∧
        (p.default ≠ "" ∧ q.default ≠ "" ∧ p.default ≠ q.default) ∧
        c = _ch "default_changed" (sym ++ "(" ++ n ++ ")")
          ("Default of '" ++ n ++ "' changed") "patch")
    ∨ (∃ n q, dictLookup (paramDict w.params) n = some q ∧
        dictLookup (paramDict o.params) n = none ∧
        c = _ch "param_added" (sym ++ "(" ++ n ++ ")")
          ("Param '" ++ n ++ "' added ("
            ++ (if (if q.default ≠ "" then "minor" else "major") = "minor"
                then "optional" else "REQUIRED") ++ ")")
          (if q.default ≠ "" then "minor" else "major"))
    ∨ ((o.ret ≠ "" ∧ w.ret ≠ "" ∧ o.ret ≠ w.ret) ∧
        c = _ch "return_type_changed" sym
          ("Return: " ++ o.ret ++ " -> " ++ w.ret) "major") := by
  intro c hc
  simp only [_diff_fn] at hc
  rcases List.mem_append.mp hc with hc | hc
  · rcases List.mem_append.mp hc with hc | hc
    · obtain ⟨e, he, hce⟩ := List.mem_flatMap.mp hc
      have hop : dictLookup (paramDict o.params) e.1 = some e.2 :=
        dictLookup_eq_some_of_mem_nodup (nodupKeys_paramDict o.params)
          (by rw [Prod.mk.eta]; exact he)
      cases hq : dictLookup (paramDict w.params) e.1 with
      | none =>
          rw [hq] at hce
          simp only [List.mem_singleton] at hce
          exact Or.inl ⟨e.1, e.2, hop, hq, hce⟩
      | some q =>
          rw [hq] at hce
          rcases List.mem_append.mp hce with hce | hce
          · by_cases hA : e.2.ann ≠ "" ∧ q.ann ≠ "" ∧ e.2.ann ≠ q.ann
            · rw [if_pos hA] at hce
              simp only [List.mem_singleton] at hce
              exact Or.inr (Or.inl ⟨e.1, e.2, q, hop, hq, hA, hce⟩)
            · rw [if_neg hA] at hce
              simp at hce
          · by_cases hB : e.2.default ≠ "" ∧ q.default = ""
            · rw [if_pos hB] at hce
              simp only [List.mem_singleton] at hce
              exact Or.inr (Or.inr (Or.inl ⟨e.1, e.2, q, hop, hq, hB, hce⟩))
            · rw [if_neg hB] at hce
              by_cases hC : e.2.default ≠ "" ∧ q.default ≠ "" ∧ e.2.default ≠ q.default
              · rw [if_pos hC] at hce
                simp only [List.mem_singleton] at hce
                exact Or.inr (Or.inr (Or.inr (Or.inl ⟨e.1, e.2, q, hop, hq, hC, hce⟩)))
              · rw [if_neg hC] at hce
                simp at hce
    · obtain ⟨e, he, hce⟩ := List.mem_filterMap.mp hc
      have hnp : dictLookup (paramDict w.params) e.1 = some e.2 :=
        dictLookup_eq_some_of_mem_nodup (nodupKeys_paramDict w.params)
          (by rw [Prod.mk.eta]; exact he)
      by_cases hl : dictLookup (paramDict o.params) e.1 = none
      · rw [if_pos hl] at hce
        injection hce with hce
        exact Or.inr (Or.inr (Or.inr (Or.inr (Or.inl ⟨e.1, e.2, hnp, hl, hce.symm⟩))))
      · rw [if_neg hl] at hce
        simp at hce
  · by_cases hR : o.ret ≠ "" ∧ w.ret ≠ "" ∧ o.ret ≠ w.ret
    · rw [if_pos hR] at hc
      simp only [List.mem_singleton] at hc
      exact Or.inr (Or.inr (Or.inr (Or.inr (Or.inr ⟨hR, hc⟩))))
    · rw [if_neg hR] at hc
      simp at hc

theorem _diff_fn_kind_mem (sym : String) (o w : FnSig) :
    ∀ c ∈ _diff_fn sym o w,
      c.kind ∈ (["param_removed", "type_changed", "default_removed",
        "default_changed", "param_added", "return_type_changed"] : List String) := by
  intro c hc
  rcases _diff_fn_mem_char sym o w c hc with
    ⟨n, p, _, _, rfl⟩ | ⟨n, p, q, _, _, _, rfl⟩ | ⟨n, p, q, _, _, _, rfl⟩ |
    ⟨n, p, q, _, _, _, rfl⟩ | ⟨n, q, _, _, rfl⟩ | ⟨_, rfl⟩ <;> simp [_ch]

theorem _diff_cls_kind_mem (sym : String) (o w : ClsSig) :
    ∀ c ∈ _diff_cls sym o w,
      c.kind ∈ (["attr_removed", "method_removed", "method_added",
        "param_removed", "type_changed", "default_removed",
        "default_changed", "param_added", "return_type_changed"] : List String) := by
  intro c hc
  simp only [_diff_cls] at hc
  rcases List.mem_append.mp hc with hc | hc
  · rcases List.mem_append.mp hc with hc | hc
    · obtain ⟨a, ha, hca⟩ := List.mem_filterMap.mp hc
      by_cases h : a ∈ w.attrs
      · rw [if_pos h] at hca
        simp at hca
      · rw [if_neg h] at hca
        injection hca with hca
        rw [← hca]
        simp [_ch]
    · obtain ⟨e, he, hce⟩ := List.mem_flatMap.mp hc
      cases hq : dictLookup w.methods e.1 with
      | none =>
          rw [hq] at hce
          simp only [List.mem_singleton] at hce
          rw [hce]
          simp [_ch]
      | some v =>
          rw [hq] at hce
          have := _diff_fn_kind_mem (sym ++ "." ++ e.1) e.2 v c hce
          simp only [List.mem_cons, List.mem_singleton] at this ⊢
          tauto
  · obtain ⟨e, he, hce⟩ := List.mem_filterMap.mp hc
    by_cases h : dictLookup o.methods e.1 = none
    · rw [if_pos h] at hce
      injection hce with hce
      rw [← hce]
      simp [_ch]
    · rw [if_neg h] at hce
      simp at hce

theorem diff_api_kind_mem (old new : ApiSurface) :
    ∀ c ∈ diff_api old new,
      c.kind ∈ (["function_removed", "function_added", "class_removed",
        "class_added", "attr_removed", "method_removed", "method_added",
        "param_removed", "type_changed", "default_removed",
        "default_changed", "param_added", "return_type_changed"] : List String) := by
  intro c hc
  simp only [diff_api] at hc
  rcases List.mem_append.mp hc with hc | hc
  · rcases List.mem_append.mp hc with hc | hc
    · rcases List.mem_append.mp hc with hc | hc
      · obtain ⟨e, he, hce⟩ := List.mem_flatMap.mp hc
        cases hq : dictLookup new.functions e.1 with
        | none =>
            rw [hq] at hce
            simp only [List.mem_singleton] at hce
            rw [hce]
            simp [_ch]
        | some v =>
            rw [hq] at hce
            have := _diff_fn_kind_mem e.1 e.2 v c hce
            simp only [List.mem_cons, List.mem_singleton] at this ⊢
            tauto
      · obtain ⟨e, he, hce⟩ := List.mem_filterMap.mp hc
        by_cases h : dictLookup old.functions e.1 = none
        · rw [if_pos h] at hce
          injection hce with hce
          rw [← hce]
          simp [_ch]
        · rw [if_neg h] at hce
          simp at hce
    · obtain ⟨e, he, hce⟩ := List.mem_flatMap.mp hc
      cases hq : dictLookup new.classes e.1 with
      | none =>
          rw [hq] at hce
          simp only [List.mem_singleton] at hce
          rw [hce]
          simp [_ch]
      | some v =>
          rw [hq] at hce
          have := _diff_cls_kind_mem e.1 e.2 v c hce
          simp only [List.mem_cons, List.mem_singleton] at this ⊢
          tauto
  · obtain ⟨e, he, hce⟩ := List.mem_filterMap.mp hc
    by_cases h : dictLookup old.classes e.1 = none
    · rw [if_pos h] at hce
      injection hce with hce
      rw [← hce]
      simp [_ch]
    · rw [if_neg h] at hce
      simp at hce

/-- C9: the diff has no `default_added` kind at all, and for a parameter
present in both signatures whose old version has no default, `_diff_fn`
emits no default-related Change for it — gaining a default is silently
treated as non-breaking. -/
theorem no_default_added_change (old new : ApiSurface) :
    (∀ c ∈ diff_api old new, c.kind ≠ "default_added") ∧
    (∀ (sym : String) (o w : FnSig) (n : String) (p q : Param),
      dictLookup (paramDict o.params) n = some p →
      dictLookup (paramDict w.params) n = some q →
      p.default = "" →
      ∀ c ∈ _diff_fn sym o w,
        (c.kind = "default_removed" ∨ c.kind = "default_changed") →
        c.symbol ≠ sym ++ "(" ++ n ++ ")") := by
  constructor
  · intro c hc hk
    have := diff_api_kind_mem old new c hc
    rw [hk] at this
    simp at this
  · intro sym o w n p q hp hq hpd c hc hk hsym
    rcases _diff_fn_mem_char sym o w c hc with
      ⟨n', p', _, _, rfl⟩ | ⟨n', p', q', _, _, _, rfl⟩ | ⟨n', p', q', hp', hq', hg, rfl⟩ |
      ⟨n', p', q', hp', hq', hg, rfl⟩ | ⟨n', q', _, _, rfl⟩ | ⟨_, rfl⟩
    · simp [_ch] at hk
    · simp [_ch] at hk
    · simp only [_ch] at hsym
      have hn : n' = n := append_paren_inj hsym
      subst hn
      rw [hp] at hp'
      injection hp' with hp'
      rw [hp'] at hpd
      exact hg.1 hpd
    · simp only [_ch] at hsym
      have hn : n' = n := append_paren_inj hsym
      subst hn
      rw [hp] at hp'
      injection hp' with hp'
      rw [hp'] at hpd
      exact hg.1 hpd
    · simp [_ch] at hk
    · simp [_ch] at hk

/-- Witness for C9: a parameter that gains a default produces an empty
diff, and a concrete change of the diff engine has a kind other than
`default_added`. -/
theorem no_default_added_change_witness :
    diff_api ⟨[("m.f", ⟨[⟨"x", "int", ""⟩], ""⟩)], []⟩
             ⟨[("m.f", ⟨[⟨"x", "int", "1"⟩], ""⟩)], []⟩ = [] ∧
    Change.kind ⟨"type_changed", "m.g(y)", "Type of 'y': int -> str", "major"⟩
      ≠ "default_added" :=
  ⟨by decide,
   (no_default_added_change ⟨[("m.g", ⟨[⟨"y", "int", ""⟩], ""⟩)], []⟩
      ⟨[("m.g", ⟨[⟨"y", "str", ""⟩], ""⟩)], []⟩).1
     ⟨"type_changed", "m.g(y)", "Type of 'y': int -> str", "major"⟩ (by decide)⟩

theorem countP_filterMap {α β : Type} (f : α → Option β) (p : β → Bool)
    (l : List α) :
    (l.filterMap f).countP p = l.countP (fun a => ((f a).map p).getD false) := by
  induction l with
  | nil => simp
  | cons a l ih =>
      cases hfa : f a <;>
        simp [List.filterMap_cons, hfa, List.countP_cons, ih]

theorem countP_keys_eq_one {α : Type} {d : List (String × α)} {k : String}
    {v : α} (hn : NodupKeys d) (hm : (k, v) ∈ d) :
    d.countP (fun e => e.1 == k) = 1 := by
  induction d with
  | nil => simp at hm
  | cons a d ih =>
      rw [NodupKeys, List.pairwise_cons] at hn
      rcases List.mem_cons.mp hm with h | h
      · have ha : a.1 = k := by rw [← h]
        have hz : d.countP (fun e => e.1 == k) = 0 :=
          List.countP_eq_zero.mpr fun b hb => by
            have hb' : a.1 ≠ b.1 := hn.1 b hb
            rw [ha] at hb'
            simp [Ne.symm hb']
        simp [List.countP_cons, ha, hz]
      · have ha : a.1 ≠ k := fun e => (hn.1 (k, v) h) e
        simp [List.countP_cons, ih hn.2 h, ha]

/-- C6: for a parameter name present in the new signature and absent in
the old, `_diff_fn` counts exactly one `param_added` Change at that
parameter's symbol, and its level is major when the parameter has no
default and minor when it has one. -/
theorem param_added_unique_level (sym : String) (o w : FnSig) (n : String)
    (q : Param)
    (hq : dictLookup (paramDict w.params) n = some q)
    (hp : dictLookup (paramDict o.params) n = none) :
    ((_diff_fn sym o w).countP fun c =>
        c.kind == "param_added" && c.symbol == sym ++ "(" ++ n ++ ")") = 1 ∧
    (∀ c ∈ _diff_fn sym o w, c.kind = "param_added" →
      c.symbol = sym ++ "(" ++ n ++ ")" →
      c.level = (if q.default = "" then "major" else "minor")) := by
  constructor
  · simp only [_diff_fn]
    rw [List.countP_append, List.countP_append]
    have hA : (List.countP (fun c =>
        c.kind == "param_added" && c.symbol == sym ++ "(" ++ n ++ ")")
        ((paramDict o.params).flatMap fun e =>
          match dictLookup (paramDict w.params) e.1 with
          | none =>
              [_ch "param_removed" (sym ++ "(" ++ e.1 ++ ")")
                ("Param '" ++ e.1 ++ "' removed from " ++ sym) "major"]
          | some q =>
              (if e.2.ann ≠ "" ∧ q.ann ≠ "" ∧ e.2.ann ≠ q.ann then
                [_ch "type_changed" (sym ++ "(" ++ e.1 ++ ")")
                  ("Type of '" ++ e.1 ++ "': " ++ e.2.ann ++ " -> " ++ q.ann) "major"]
              else [])
              ++
              (if e.2.default ≠ "" ∧ q.default = "" then
                [_ch "default_removed" (sym ++ "(" ++ e.1 ++ ")")
                  ("Default of '" ++ e.1 ++ "' removed (now required)") "major"]
              else if e.2.default ≠ "" ∧ q.default ≠ "" ∧ e.2.default ≠ q.default then
                [_ch "default_changed" (sym ++ "(" ++ e.1 ++ ")")
                  ("Default of '" ++ e.1 ++ "' changed") "patch"]
              else []))) = 0 := by
      refine List.countP_eq_zero.mpr fun c hc => ?_
      obtain ⟨e, he, hce⟩ := List.mem_flatMap.mp hc
      cases hq' : dictLookup (paramDict w.params) e.1 with
      | none =>
          rw [hq'] at hce
          simp only [List.mem_singleton] at hce
          subst hce
          simp [_ch]
      | some q' =>
          rw [hq'] at hce
          rcases List.mem_append.mp hce with hce | hce
          · by_cases hA : e.2.ann ≠ "" ∧ q'.ann ≠ "" ∧ e.2.ann ≠ q'.ann
            · rw [if_pos hA] at hce
              simp only [List.mem_singleton] at hce
              subst hce
              simp [_ch]
            · rw [if_neg hA] at hce
              simp at hce
          · by_cases hB : e.2.default ≠ "" ∧ q'.default = ""
            · rw [if_pos hB] at hce
              simp only [List.mem_singleton] at hce
              subst hce
              simp [_ch]
            · rw [if_neg hB] at hce
              by_cases hC : e.2.default ≠ "" ∧ q'.default ≠ "" ∧ e.2.default ≠ q'.default
              · rw [if_pos hC] at hce
                simp only [List.mem_singleton] at hce
                subst hce
                simp [_ch]
              · rw [if_neg hC] at hce
                simp at hce
    have hC : (List.countP (fun c =>
        c.kind == "param_added" && c.symbol == sym ++ "(" ++ n ++ ")")
        (if o.ret ≠ "" ∧ w.ret ≠ "" ∧ o.ret ≠ w.ret then
          [_ch "return_type_changed" sym
            ("Return: " ++ o.ret ++ " -> " ++ w.ret) "major"]
        else [])) = 0 := by
      by_cases hR : o.ret ≠ "" ∧ w.ret ≠ "" ∧ o.ret ≠ w.ret
      · rw [if_pos hR]
        simp [List.countP_cons, _ch]
      · rw [if_neg hR]
        simp
    have hB : (List.countP (fun c =>
        c.kind == "param_added" && c.symbol == sym ++ "(" ++ n ++ ")")
        ((paramDict w.params).filterMap fun e =>
          if dictLookup (paramDict o.params) e.1 = none then
            some (_ch "param_added" (sym ++ "(" ++ e.1 ++ ")")
              ("Param '" ++ e.1 ++ "' added ("
                ++ (if (if e.2.default ≠ "" then "minor" else "major") = "minor"
                    then "optional" else "REQUIRED") ++ ")")
              (if e.2.default ≠ "" then "minor" else "major"))
          else none)) = 1 := by
      rw [countP_filterMap]
      rw [List.countP_congr (q := fun e => e.1 == n) ?_]
      · exact countP_keys_eq_one (nodupKeys_paramDict w.params)
          (mem_of_dictLookup_eq_some hq)
      · intro e he
        by_cases hen : e.1 = n
        · have hl : dictLookup (paramDict o.params) e.1 = none := by
            rw [hen]; exact hp
          simp [hp, hl, _ch, hen]
        · by_cases hl : dictLookup (paramDict o.params) e.1 = none
          · rw [if_pos hl]
            simp only [Option.map_some', Option.getD_some]
            simp only [_ch, Bool.and_eq_true, beq_iff_eq]
            constructor
            · intro hpe
              exact absurd (append_paren_inj hpe.2) hen
            · intro hpe
              exact absurd hpe hen
          · rw [if_neg hl]
            simp only [Option.map_none', Option.getD_none]
            simp only [beq_iff_eq]
            constructor
            · intro hfalse
              exact absurd hfalse (by simp)
            · intro hpe
              exact absurd hpe hen
    rw [hA, hB, hC]
  · intro c hc hk hsym
    rcases _diff_fn_mem_char sym o w c hc with
      ⟨n', p', _, _, rfl⟩ | ⟨n', p', q', _, _, _, rfl⟩ | ⟨n', p', q', _, _, _, rfl⟩ |
      ⟨n', p', q', _, _, _, rfl⟩ | ⟨n', q', hq', hl', rfl⟩ | ⟨_, rfl⟩
    · simp [_ch] at hk
    · simp [_ch] at hk
    · simp [_ch] at hk
    · simp [_ch] at hk
    · simp only [_ch] at hsym
      have hn : n' = n := append_paren_inj hsym
      subst hn
      rw [hq] at hq'
      injection hq' with hq'
      subst hq'
      by_cases hd : q.default = "" <;> simp [_ch, hd]
    · simp [_ch] at hk

/-- Witness for C6: spec §8 Scenario B, an optional `timeout` parameter
added to `fetch`, counted exactly once. -/
theorem param_added_unique_level_witness :
    ((_diff_fn "api.fetch" ⟨[⟨"url", "str", ""⟩], "str"⟩
        ⟨[⟨"url", "str", ""⟩, ⟨"timeout", "int", "30"⟩], "str"⟩).countP fun c =>
      c.kind == "param_added" &&
        c.symbol == "api.fetch" ++ "(" ++ "timeout" ++ ")") = 1 :=
  (param_added_unique_level "api.fetch" ⟨[⟨"url", "str", ""⟩], "str"⟩
    ⟨[⟨"url", "str", ""⟩, ⟨"timeout", "int", "30"⟩], "str"⟩ "timeout"
    ⟨"timeout", "int", "30"⟩ (by decide) (by decide)).1

/-! Severity aggregation. -/

/-- A level string `LEVEL_RANK` knows. -/
def validLevel (l : String) : Prop :=
  l = "patch" ∨ l = "minor" ∨ l = "major"

theorem _diff_fn_level_valid (sym : String) (o w : FnSig) :
    ∀ c ∈ _diff_fn sym o w, validLevel c.level := by
  intro c hc
  rcases _diff_fn_mem_char sym o w c hc with
    ⟨n, p, _, _, rfl⟩ | ⟨n, p, q, _, _, _, rfl⟩ | ⟨n, p, q, _, _, _, rfl⟩ |
    ⟨n, p, q, _, _, _, rfl⟩ | ⟨n, q, _, _, rfl⟩ | ⟨_, rfl⟩
  · simp [_ch, validLevel]
  · simp [_ch, validLevel]
  · simp [_ch, validLevel]
  · simp [_ch, validLevel]
  · by_cases hd : q.default ≠ "" <;> simp [_ch, validLevel, hd]
  · simp [_ch, validLevel]

theorem _diff_cls_level_valid (sym : String) (o w : ClsSig) :
    ∀ c ∈ _diff_cls sym o w, validLevel c.level := by
  intro c hc
  simp only [_diff_cls] at hc
  rcases List.mem_append.mp hc with hc | hc
  · rcases List.mem_append.mp hc with hc | hc
    · obtain ⟨a, ha, hca⟩ := List.mem_filterMap.mp hc
      by_cases h : a ∈ w.attrs
      · rw [if_pos h] at hca
        simp at hca
      · rw [if_neg h] at hca
        injection hca with hca
        rw [← hca]
        simp [_ch, validLevel]
    · obtain ⟨e, he, hce⟩ := List.mem_flatMap.mp hc
      cases hq : dictLookup w.methods e.1 with
      | none =>
          rw [hq] at hce
          simp only [List.mem_singleton] at hce
          rw [hce]
          simp [_ch, validLevel]
      | some v =>
          rw [hq] at hce
          exact _diff_fn_level_valid (sym ++ "." ++ e.1) e.2 v c hce
  · obtain ⟨e, he, hce⟩ := List.mem_filterMap.mp hc
    by_cases h : dictLookup o.methods e.1 = none
    · rw [if_pos h] at hce
      injection hce with hce
      rw [← hce]
      simp [_ch, validLevel]
    · rw [if_neg h] at hce
      simp at hce

theorem diff_api_level_valid (old new : ApiSurface) :
    ∀ c ∈ diff_api old new, validLevel c.level := by
  intro c hc
  simp only [diff_api] at hc
  rcases List.mem_append.mp hc with hc | hc
  · rcases List.mem_append.mp hc with hc | hc
    · rcases List.mem_append.mp hc with hc | hc
      · obtain ⟨e, he, hce⟩ := List.mem_flatMap.mp hc
        cases hq : dictLookup new.functions e.1 with
        | none =>
            rw [hq] at hce
            simp only [List.mem_singleton] at hce
            rw [hce]
            simp [_ch, validLevel]
        | some v =>
            rw [hq] at hce
            exact _diff_fn_level_valid e.1 e.2 v c hce
      · obtain ⟨e, he, hce⟩ := List.mem_filterMap.mp hc
        by_cases h : dictLookup old.functions e.1 = none
        · rw [if_pos h] at hce
          injection hce with hce
          rw [← hce]
          simp [_ch, validLevel]
        · rw [if_neg h] at hce
          simp at hce
    · obtain ⟨e, he, hce⟩ := List.mem_flatMap.mp hc
      cases hq : dictLookup new.classes e.1 with
      | none =>
          rw [hq] at hce
          simp only [List.mem_singleton] at hce
          rw [hce]
          simp [_ch, validLevel]
      | some v =>
          rw [hq] at hce
          exact _diff_cls_level_valid e.1 e.2 v c hce
  · obtain ⟨e, he, hce⟩ := List.mem_filterMap.mp hc
    by_cases h : dictLookup old.classes e.1 = none
    · rw [if_pos h] at hce
      injection hce with hce
      rw [← hce]
      simp [_ch, validLevel]
    · rw [if_neg h] at hce
      simp at hce

theorem maxStep_some (b x : String) (hb : validLevel b) (hx : validLevel x) :
    ∃ m, maxStep (some b) x = some m ∧ validLevel m ∧
      (m = "patch" ↔ b = "patch" ∧ x = "patch") := by
  rcases hb with rfl | rfl | rfl <;> rcases hx with rfl | rfl | rfl <;>
    exact ⟨_, rfl, by simp [validLevel], by decide⟩

theorem foldl_maxStep (ls : List String) (b : String) (hb : validLevel b)
    (hls : ∀ x ∈ ls, validLevel x) :
    ∃ m, ls.foldl maxStep (some b) = some m ∧ validLevel m ∧
      (m = "patch" ↔ b = "patch" ∧ ∀ x ∈ ls, x = "patch") := by
  induction ls generalizing b with
  | nil => exact ⟨b, rfl, hb, by simp⟩
  | cons x ls ih =>
      obtain ⟨b', hbeq, hbv, hbiff⟩ :=
        maxStep_some b x hb (hls x (List.mem_cons_self x ls))
      obtain ⟨m, hm, hmv, hmiff⟩ :=
        ih b' hbv (fun y hy => hls y (List.mem_cons_of_mem _ hy))
      refine ⟨m, ?_, hmv, ?_⟩
      · rw [List.foldl_cons, hbeq, hm]
      · rw [hmiff, hbiff]
        constructor
        · rintro ⟨⟨h1, h2⟩, h3⟩
          refine ⟨h1, fun y hy => ?_⟩
          rcases List.mem_cons.mp hy with rfl | hy
          · exact h2
          · exact h3 y hy
        · rintro ⟨h1, h2⟩
          exact ⟨⟨h1, h2 x (List.mem_cons_self x ls)⟩,
            fun y hy => h2 y (List.mem_cons_of_mem _ hy)⟩

/-- C1 (amended): the aggregated severity of a diff is never an absent
value, and it equals `"patch"` exactly when every Change of the diff has
level `"patch"` — in particular the empty diff yields `"patch"`, but a
non-empty diff of patch-level changes (a `default_changed`) does too. -/
theorem max_level_patch_iff_all_patch (old new : ApiSurface) :
    (max_level (diff_api old new)).isSome = true ∧
    (max_level (diff_api old new) = some "patch" ↔
      ∀ c ∈ diff_api old new, c.level = "patch") := by
  cases hD : diff_api old new with
  | nil => simp [max_level, hD]
  | cons c cs =>
      have hcv : validLevel c.level :=
        diff_api_level_valid old new c (by rw [hD]; exact List.mem_cons_self c cs)
      have hinit : (if (LEVEL_RANK c.level).isSome then some c.level else none)
          = some c.level := by
        rcases hcv with h | h | h <;> simp [LEVEL_RANK, h]
      obtain ⟨m, hm, hmv, hmiff⟩ :=
        foldl_maxStep (cs.map fun d => d.level) c.level hcv
          (fun x hx => by
            obtain ⟨d, hd, rfl⟩ := List.mem_map.mp hx
            exact diff_api_level_valid old new d
              (by rw [hD]; exact List.mem_cons_of_mem _ hd))
      have hml : max_level (c :: cs) = some m := by
        rw [max_level]
        simp only [List.map_cons]
        rw [hinit, hm]
      constructor
      · rw [hml]
        rfl
      · rw [hml, Option.some.injEq]
        rw [hmiff]
        constructor
        · rintro ⟨h1, h2⟩ d hd
          rcases List.mem_cons.mp hd with rfl | hd
          · exact h1
          · exact h2 d.level (List.mem_map.mpr ⟨d, hd, rfl⟩)
        · intro h
          refine ⟨h c (List.mem_cons_self c cs), fun x hx => ?_⟩
          obtain ⟨d, hd, rfl⟩ := List.mem_map.mp hx
          exact h d (List.mem_cons_of_mem _ hd)

/-- Counterexample to C1 as stated: a diff consisting of a single
`default_changed` Change is non-empty yet aggregates to `"patch"`, so
"`patch` iff the diff is empty" fails. -/
theorem max_level_patch_nonempty_diff :
    ¬ ((max_level (diff_api ⟨[("m.f", ⟨[⟨"x", "", "1"⟩], ""⟩)], []⟩
          ⟨[("m.f", ⟨[⟨"x", "", "2"⟩], ""⟩)], []⟩) = some "patch") ↔
        diff_api ⟨[("m.f", ⟨[⟨"x", "", "1"⟩], ""⟩)], []⟩
          ⟨[("m.f", ⟨[⟨"x", "", "2"⟩], ""⟩)], []⟩ = []) := by decide

/-! Shape of the signature built by the parameter parser. -/

theorem listModify_length {α : Type} (f : α → α) :
    ∀ (j : Nat) (l : List α), (listModify f j l).length = l.length := by
  intro j l
  induction l generalizing j with
  | nil => cases j <;> rfl
  | cons a l ih =>
      cases j with
      | zero => simp [listModify]
      | succ j => simp [listModify, ih]

theorem map_listModify_fixed {α β : Type} (f : α → α) (g : α → β)
    (h : ∀ a, g (f a) = g a) :
    ∀ (j : Nat) (l : List α), (listModify f j l).map g = l.map g := by
  intro j l
  induction l generalizing j with
  | nil => cases j <;> rfl
  | cons a l ih =>
      cases j with
      | zero => simp [listModify, h]
      | succ j => simp [listModify, ih]

theorem map_listModify_const {α β : Type} (f : α → α) (g : α → β) (c : β)
    (h : ∀ a, g (f a) = c) :
    ∀ (j : Nat) (l : List α),
      (listModify f j l).map g = listModify (fun _ => c) j (l.map g) := by
  intro j l
  induction l generalizing j with
  | nil => cases j <;> rfl
  | cons a l ih =>
      cases j with
      | zero => simp [listModify, h]
      | succ j => simp [listModify, ih]

theorem take_listModify_const {β : Type} (c : β) :
    ∀ (j : Nat) (m : List β), j < m.length →
      (listModify (fun _ => c) j m).take (j + 1) = m.take j ++ [c] := by
  intro j
  induction j with
  | zero =>
      intro m hm
      cases m with
      | nil => simp at hm
      | cons a m => simp [listModify]
  | succ j ih =>
      intro m hm
      cases m with
      | nil => simp at hm
      | cons a m =>
          simp only [listModify, List.take_succ_cons]
          rw [ih m (by simpa using hm)]
          simp

theorem setTrailingDefault_spec (nd : Nat) (ps : List Param) (i : Nat)
    (d : String) (h1 : nd ≤ ps.length) (h2 : i < nd) :
    setTrailingDefault nd ps (i, d)
      = listModify (fun p => { p with default := d }) (ps.length - nd + i) ps := by
  simp only [setTrailingDefault]
  rw [if_pos (by constructor <;> omega)]
  congr 1
  omega

theorem setTrailingDefault_length (nd : Nat) (ps : List Param)
    (pr : Nat × String) : (setTrailingDefault nd ps pr).length = ps.length := by
  obtain ⟨i, d⟩ := pr
  simp only [setTrailingDefault]
  split
  · exact listModify_length _ _ _
  · rfl

theorem foldl_setTrailingDefault_length (nd : Nat) :
    ∀ (prs : List (Nat × String)) (ps : List Param),
      (prs.foldl (setTrailingDefault nd) ps).length = ps.length := by
  intro prs
  induction prs with
  | nil => intro ps; rfl
  | cons pr prs ih =>
      intro ps
      rw [List.foldl_cons, ih, setTrailingDefault_length]

theorem foldl_setTrailingDefault_names (nd : Nat) :
    ∀ (prs : List (Nat × String)) (ps : List Param),
      ((prs.foldl (setTrailingDefault nd) ps).map fun p => p.name)
        = ps.map fun p => p.name := by
  intro prs
  induction prs with
  | nil => intro ps; rfl
  | cons pr prs ih =>
      intro ps
      obtain ⟨i, d⟩ := pr
      rw [List.foldl_cons, ih]
      simp only [setTrailingDefault]
      split
      · exact map_listModify_fixed (fun p : Param => { p with default := d })
          (fun p => p.name) (fun a => rfl) _ _
      · rfl

theorem foldl_setTrailingDefault_defaults (nd L : Nat) :
    ∀ (ds : List String) (k : Nat) (ps : List Param),
      ps.length = L → k + ds.length = nd → nd ≤ L →
      ((List.enumFrom k ds).foldl (setTrailingDefault nd) ps).map
          (fun p => p.default)
        = ((ps.map fun p => p.default).take (L - (nd - k))) ++ ds := by
  intro ds
  induction ds with
  | nil =>
      intro k ps hL hk hnd
      simp only [List.length_nil] at hk
      rw [show List.enumFrom k ([] : List String) = [] from rfl,
        List.foldl_nil, List.append_nil]
      rw [show nd - k = 0 by omega, Nat.sub_zero]
      rw [List.take_of_length_le (by simp [hL])]
  | cons d ds ih =>
      intro k ps hL hk hnd
      simp only [List.length_cons] at hk
      rw [show List.enumFrom k (d :: ds) = (k, d) :: List.enumFrom (k + 1) ds
        from rfl, List.foldl_cons]
      rw [setTrailingDefault_spec nd ps k d (by omega) (by omega)]
      have hlen' : (listModify (fun p : Param => { p with default := d })
          (ps.length - nd + k) ps).length = L := by
        rw [listModify_length]
        exact hL
      rw [ih (k + 1) _ hlen' (by omega) hnd]
      rw [map_listModify_const (fun p : Param => { p with default := d })
        (fun p => p.default) d (fun a => rfl)]
      have hsub1 : L - (nd - (k + 1)) = (ps.length - nd + k) + 1 := by omega
      have hsub2 : L - (nd - k) = ps.length - nd + k := by omega
      rw [hsub1, hsub2]
      rw [take_listModify_const d (ps.length - nd + k) _
        (by rw [List.length_map]; omega)]
      simp

theorem filterMap_param_names (aargs : List Arg) :
    ((aargs.filterMap fun a =>
        if a.arg = "self" then none
        else some ({ name := a.arg, ann := a.annot.getD "", default := "" } : Param)).map
      fun p => p.name)
      = (aargs.filter fun a => !(a.arg == "self")).map fun a => a.arg := by
  induction aargs with
  | nil => rfl
  | cons a l ih =>
      by_cases ha : a.arg = "self" <;>
        simp [List.filterMap_cons, List.filter_cons, ha, ih]

/-- C10: `_parse_fn` depends only on the positional argument list, the
defaults and the return annotation — the function's name, directive,
keyword-only arguments, `*args` and `**kwargs` are never recorded, so two
versions differing only in those diff to nothing; the recorded parameter
names are exactly the positional names other than `self`; and the
defaults align to the trailing parameters. -/
theorem parse_fn_positional_params_only (nm1 nm2 : String) (aargs : List Arg)
    (ds : List String) (kw1 kw2 : List Arg) (va1 va2 : Option Arg)
    (ka1 ka2 : Option Arg) (ret : Option String) (dir1 dir2 : Directive) :
    _parse_fn ⟨nm1, ⟨aargs, ds, kw1, va1, ka1⟩, ret, dir1⟩
      = _parse_fn ⟨nm2, ⟨aargs, ds, kw2, va2, ka2⟩, ret, dir2⟩ ∧
    ((_parse_fn ⟨nm1, ⟨aargs, ds, kw1, va1, ka1⟩, ret, dir1⟩).params.map
        fun p => p.name)
      = (aargs.filter fun a => !(a.arg == "self")).map (fun a => a.arg) ∧
    (∀ sym, _diff_fn sym
        (_parse_fn ⟨nm1, ⟨aargs, ds, kw1, va1, ka1⟩, ret, dir1⟩)
        (_parse_fn ⟨nm2, ⟨aargs, ds, kw2, va2, ka2⟩, ret, dir2⟩) = []) ∧
    (ds.length ≤ (_parse_fn ⟨nm1, ⟨aargs, ds, kw1, va1, ka1⟩, ret, dir1⟩).params.length →
      ((_parse_fn ⟨nm1, ⟨aargs, ds, kw1, va1, ka1⟩, ret, dir1⟩).params.map
          fun p => p.default)
        = List.replicate
            ((_parse_fn ⟨nm1, ⟨aargs, ds, kw1, va1, ka1⟩, ret, dir1⟩).params.length
              - ds.length) "" ++ ds) := by
  have heq : _parse_fn ⟨nm1, ⟨aargs, ds, kw1, va1, ka1⟩, ret, dir1⟩
      = _parse_fn ⟨nm2, ⟨aargs, ds, kw2, va2, ka2⟩, ret, dir2⟩ := rfl
  refine ⟨heq, ?_, fun sym => by rw [← heq]; exact _diff_fn_self sym _, ?_⟩
  · simp only [_parse_fn]
    rw [List.enum_eq_enumFrom, foldl_setTrailingDefault_names]
    exact filterMap_param_names aargs
  · intro hlen
    simp only [_parse_fn] at hlen ⊢
    rw [List.enum_eq_enumFrom] at hlen ⊢
    have hall : ∀ p ∈ (aargs.filterMap fun a =>
        if a.arg = "self" then none
        else some ({ name := a.arg, ann := a.annot.getD "", default := "" } : Param)),
        p.default = "" := by
      intro p hp
      obtain ⟨a, _, hap⟩ := List.mem_filterMap.mp hp
      by_cases ha : a.arg = "self"
      · rw [if_pos ha] at hap
        simp at hap
      · rw [if_neg ha] at hap
        injection hap with hap
        rw [← hap]
    have h0 : ((aargs.filterMap fun a =>
        if a.arg = "self" then none
        else some ({ name := a.arg, ann := a.annot.getD "", default := "" } : Param)).map
          fun p => p.default)
        = List.replicate (aargs.filterMap fun a =>
            if a.arg = "self" then none
            else some ({ name := a.arg, ann := a.annot.getD "", default := "" } : Param)).length "" := by
      have hrep := List.eq_replicate_of_mem
        (l := (aargs.filterMap fun a =>
          if a.arg = "self" then none
          else some ({ name := a.arg, ann := a.annot.getD "", default := "" } : Param)).map
            fun p => p.default)
        (a := "") ?_
      · simpa using hrep
      · intro b hb
        obtain ⟨p, hp, rfl⟩ := List.mem_map.mp hb
        exact hall p hp
    have hnd : ds.length ≤ (aargs.filterMap fun a =>
        if a.arg = "self" then none
        else some ({ name := a.arg, ann := a.annot.getD "", default := "" } : Param)).length := by
      rw [foldl_setTrailingDefault_length] at hlen
      exact hlen
    rw [foldl_setTrailingDefault_defaults ds.length _ ds 0 _ rfl (by omega) hnd]
    rw [h0, Nat.sub_zero, List.take_replicate, foldl_setTrailingDefault_length]
    congr 2
    omega

/-- Witness for C10: a method with `self`, one annotated parameter, one
defaulted parameter, a keyword-only argument and `*args`; the recorded
defaults align to the trailing parameter. -/
theorem parse_fn_positional_params_only_witness :
    ((_parse_fn ⟨"f", ⟨[⟨"self", none⟩, ⟨"x", some "int"⟩, ⟨"y", none⟩], ["1"],
        [⟨"k", none⟩], some ⟨"a", none⟩, none⟩, some "str", .noDir⟩).params.map
      fun p => p.default)
      = List.replicate
          ((_parse_fn ⟨"f", ⟨[⟨"self", none⟩, ⟨"x", some "int"⟩, ⟨"y", none⟩], ["1"],
              [⟨"k", none⟩], some ⟨"a", none⟩, none⟩, some "str", .noDir⟩).params.length
            - (["1"] : List String).length) "" ++ ["1"] :=
  (parse_fn_positional_params_only "f" "g"
    [⟨"self", none⟩, ⟨"x", some "int"⟩, ⟨"y", none⟩] ["1"]
    [⟨"k", none⟩] [] (some ⟨"a", none⟩) none none none (some "str")
    .noDir .publicDir).2.2.2 (by decide)

/-! Extraction lemmas. -/

theorem append_dot_inj {mod a b : String}
    (h : mod ++ "." ++ a = mod ++ "." ++ b) : a = b := by
  have hd := congrArg String.data h
  simp only [String.data_append, List.append_assoc] at hd
  exact String.ext (List.append_cancel_left (List.append_cancel_left hd))

theorem extract_fold_functions_mem (mod : String) (pub : List String) :
    ∀ (body : List TopStmt) (s : ApiSurface) (e : String × FnSig),
      e ∈ (body.foldl (extract_step mod pub) s).functions →
      e ∈ s.functions ∨ ∃ f : FunctionDef, TopStmt.fn f ∈ body ∧
        f.name ∈ pub ∧ e = (mod ++ "." ++ f.name, _parse_fn f) := by
  intro body
  induction body with
  | nil => intro s e he; exact Or.inl he
  | cons st body ih =>
      intro s e he
      rw [List.foldl_cons] at he
      rcases ih _ e he with h | ⟨f, hf, hfp, hfe⟩
      · cases st with
        | fn f =>
            by_cases hp : f.name ∈ pub
            · simp only [extract_step, if_pos hp] at h
              rcases mem_dictInsert h with h' | h'
              · exact Or.inl h'
              · exact Or.inr ⟨f, List.mem_cons_self _ _, hp, h'⟩
            · simp only [extract_step, if_neg hp] at h
              exact Or.inl h
        | cls c =>
            simp only [extract_step] at h
            split at h
            · exact Or.inl h
            · split at h
              · exact Or.inl h
              · exact Or.inl h
        | exportList xs => exact Or.inl h
        | importFrom rel ns d => exact Or.inl h
        | other => exact Or.inl h
      · exact Or.inr ⟨f, List.mem_cons_of_mem _ hf, hfp, hfe⟩

theorem extract_fold_classes_mem (mod : String) (pub : List String) :
    ∀ (body : List TopStmt) (s : ApiSurface) (e : String × ClsSig),
      e ∈ (body.foldl (extract_step mod pub) s).classes →
      e ∈ s.classes ∨ ∃ c : ClassDef, TopStmt.cls c ∈ body ∧
        e = (mod ++ "." ++ c.name, _parse_cls c) := by
  intro body
  induction body with
  | nil => intro s e he; exact Or.inl he
  | cons st body ih =>
      intro s e he
      rw [List.foldl_cons] at he
      rcases ih _ e he with h | ⟨c, hc, hce⟩
      · cases st with
        | fn f =>
            simp only [extract_step] at h
            split at h
            · exact Or.inl h
            · exact Or.inl h
        | cls c =>
            simp only [extract_step] at h
            split at h
            · rcases mem_dictInsert h with h' | h'
              · exact Or.inl h'
              · exact Or.inr ⟨c, List.mem_cons_self _ _, h'⟩
            · split at h
              · rcases mem_dictInsert h with h' | h'
                · exact Or.inl h'
                · exact Or.inr ⟨c, List.mem_cons_self _ _, h'⟩
              · exact Or.inl h
        | exportList xs => exact Or.inl h
        | importFrom rel ns d => exact Or.inl h
        | other => exact Or.inl h
      · exact Or.inr ⟨c, List.mem_cons_of_mem _ hc, hce⟩

theorem extract_fold_classes_mono (mod : String) (pub : List String) :
    ∀ (body : List TopStmt) (s : ApiSurface) (key : String),
      dictLookup s.classes key ≠ none →
      dictLookup ((body.foldl (extract_step mod pub) s)).classes key ≠ none := by
  intro body
  induction body with
  | nil => intro s key h; exact h
  | cons st body ih =>
      intro s key h
      rw [List.foldl_cons]
      refine ih _ key ?_
      cases st with
      | fn f =>
          simp only [extract_step]
          split
          · exact h
          · exact h
      | cls c =>
          simp only [extract_step]
          split
          · rw [dictLookup_dictInsert]
            split
            · simp
            · exact h
          · split
            · rw [dictLookup_dictInsert]
              split
              · simp
              · exact h
            · exact h
      | exportList xs => exact h
      | importFrom rel ns d => exact h
      | other => exact h

theorem extract_fold_classes_isSome (mod : String) (pub : List String) :
    ∀ (body : List TopStmt) (s : ApiSurface) (c : ClassDef),
      TopStmt.cls c ∈ body →
      (c.name ∈ pub ∨ startswith c.name "_" = false) →
      dictLookup ((body.foldl (extract_step mod pub) s)).classes
        (mod ++ "." ++ c.name) ≠ none := by
  intro body
  induction body with
  | nil => intro s c hc; simp at hc
  | cons st body ih =>
      intro s c hc hcond
      rw [List.foldl_cons]
      rcases List.mem_cons.mp hc with heq | hc'
      · rw [← heq]
        apply extract_fold_classes_mono
        rcases hcond with hp | hu
        · simp [extract_step, hp, dictLookup_dictInsert]
        · by_cases hp : c.name ∈ pub
          · simp [extract_step, hp, dictLookup_dictInsert]
          · simp [extract_step, hp, hu, dictLookup_dictInsert]
      · exact ih _ c hc' hcond

theorem not_mem_discover (tree : Module) (filename : String) (nm : String)
    (h1 : ∀ f : FunctionDef, TopStmt.fn f ∈ tree.body → f.name = nm →
      f.directive = Directive.ignoreDir)
    (h3 : ∀ c : ClassDef, TopStmt.cls c ∈ tree.body → c.name ≠ nm)
    (h5 : ∀ (rel : Bool) (ns : List String) (d : Directive),
      TopStmt.importFrom rel ns d ∈ tree.body → nm ∉ ns) :
    nm ∉ discover_public_api tree filename := by
  intro hmem
  simp only [discover_public_api] at hmem
  rcases List.mem_append.mp hmem with h | h
  · obtain ⟨st, hst, hx⟩ := List.mem_filterMap.mp h
    cases st with
    | fn f =>
        dsimp only at hx
        split at hx
        · rename_i hcond
          injection hx with hx
          rw [h1 f hst hx] at hcond
          simp at hcond
        · simp at hx
    | cls c =>
        dsimp only at hx
        split at hx
        · injection hx with hx
          exact h3 c hst hx
        · simp at hx
    | exportList xs => dsimp only at hx; simp at hx
    | importFrom rel ns d => dsimp only at hx; simp at hx
    | other => dsimp only at hx; simp at hx
  · split at h
    · obtain ⟨st, hst, hx⟩ := List.mem_flatMap.mp h
      cases st with
      | importFrom rel ns d =>
          dsimp only at hx
          split at hx
          · exact h5 rel ns d hst hx
          · simp at hx
      | fn f => dsimp only at hx; simp at hx
      | cls c => dsimp only at hx; simp at hx
      | exportList xs => dsimp only at hx; simp at hx
      | other => dsimp only at hx; simp at hx
    · simp at h

/-- C3 (amended): in `extract_api` a top-level class whose name does not
start with an underscore is included in the snapshot regardless of export
lists or directives — the line-24 fallback checks only the underscore
prefix, so even an explicit ignore directive cannot exclude such a class —
while a top-level function is included exactly per Surface Discovery's
verdict, with no fallback. -/
theorem class_fallback_ignores_directive (mf : ModFile) :
    (∀ c : ClassDef, TopStmt.cls c ∈ mf.tree.body →
      startswith c.name "_" = false →
      dictLookup (extract_api [mf]).classes (mf.mod ++ "." ++ c.name) ≠ none) ∧
    (∀ f : FunctionDef, TopStmt.fn f ∈ mf.tree.body →
      f.name ∉ discover_public_api mf.tree mf.filename →
      dictLookup (extract_api [mf]).functions (mf.mod ++ "." ++ f.name) = none) := by
  constructor
  · intro c hc hu
    simp only [extract_api, List.foldl_cons, List.foldl_nil, extract_module]
    exact extract_fold_classes_isSome _ _ _ _ c hc (Or.inr hu)
  · intro f hf hnp
    simp only [extract_api, List.foldl_cons, List.foldl_nil, extract_module]
    by_contra hne
    obtain ⟨v, hv⟩ := Option.ne_none_iff_exists'.mp hne
    have hmem := mem_of_dictLookup_eq_some hv
    rcases extract_fold_functions_mem _ _ _ _ _ hmem with h | ⟨f', hf', hfp, hfe⟩
    · simp at h
    · have hk : mf.mod ++ "." ++ f.name = mf.mod ++ "." ++ f'.name := by
        have := congrArg Prod.fst hfe
        simpa using this
      rw [← append_dot_inj hk] at hfp
      exact hnp hfp

/-- Counterexample to C3 as stated: a class named `Foo` (no underscore)
whose declaring line carries the ignore directive is excluded by Surface
Discovery, yet the line-24 fallback of `extract_api` still inserts it into
the snapshot. -/
theorem ignored_class_still_extracted :
    "Foo" ∉ discover_public_api ⟨[TopStmt.cls ⟨"Foo", [], .ignoreDir⟩]⟩ "m.py" ∧
    dictLookup (extract_api
        [⟨"m", "m.py", ⟨[TopStmt.cls ⟨"Foo", [], .ignoreDir⟩]⟩⟩]).classes "m.Foo"
      = some ⟨[], []⟩ := by decide

/-- Witness for C3 (amended) at a concrete module: an export list that
names neither declaration, an ignored class `Foo` (still extracted) and an
unexported function `qux` (not extracted). -/
theorem class_fallback_ignores_directive_witness :
    dictLookup (extract_api [⟨"m", "m.py", ⟨[TopStmt.exportList ["keep"],
        TopStmt.cls ⟨"Foo", [], .ignoreDir⟩,
        TopStmt.fn ⟨"qux", ⟨[], [], [], none, none⟩, none, .noDir⟩]⟩⟩]).classes
      ("m" ++ "." ++ "Foo") ≠ none ∧
    dictLookup (extract_api [⟨"m", "m.py", ⟨[TopStmt.exportList ["keep"],
        TopStmt.cls ⟨"Foo", [], .ignoreDir⟩,
        TopStmt.fn ⟨"qux", ⟨[], [], [], none, none⟩, none, .noDir⟩]⟩⟩]).functions
      ("m" ++ "." ++ "qux") = none :=
  ⟨(class_fallback_ignores_directive ⟨"m", "m.py", ⟨[TopStmt.exportList ["keep"],
        TopStmt.cls ⟨"Foo", [], .ignoreDir⟩,
        TopStmt.fn ⟨"qux", ⟨[], [], [], none, none⟩, none, .noDir⟩]⟩⟩).1
      ⟨"Foo", [], .ignoreDir⟩ (by decide) (by decide),
   (class_fallback_ignores_directive ⟨"m", "m.py", ⟨[TopStmt.exportList ["keep"],
        TopStmt.cls ⟨"Foo", [], .ignoreDir⟩,
        TopStmt.fn ⟨"qux", ⟨[], [], [], none, none⟩, none, .noDir⟩]⟩⟩).2
      ⟨"qux", ⟨[], [], [], none, none⟩, none, .noDir⟩ (by decide) (by decide)⟩

/-! Ignore directives and the symbols of emitted changes. -/

/-- The string holds no opening parenthesis, as every Python identifier
does. -/
def parenFreeB (s : String) : Bool := !(s.data.contains '(')

theorem parenFreeB_iff (s : String) : parenFreeB s = true ↔ '(' ∉ s.data := by
  simp [parenFreeB]

/-- Every name a class-body item declares is parenthesis-free. -/
def clsItemOK : ClsItem → Bool
  | .fn g => parenFreeB g.name
  | .annAssign t => parenFreeB t
  | .other => true

/-- Every name a top-level statement declares is parenthesis-free. -/
def topStmtOK : TopStmt → Bool
  | .fn f => parenFreeB f.name
  | .cls c => parenFreeB c.name && c.body.all clsItemOK
  | _ => true

/-- Every declared name of the module is parenthesis-free, as Python
identifiers always are. -/
def ModuleOK (m : Module) : Bool := m.body.all topStmtOK

theorem topStmtOK_of_mem {m : Module} (h : ModuleOK m = true) {st : TopStmt}
    (hst : st ∈ m.body) : topStmtOK st = true := by
  rw [ModuleOK, List.all_eq_true] at h
  exact h st hst

theorem paren_data (s t : String) :
    (s ++ "(" ++ t ++ ")").data = s.data ++ '(' :: (t.data ++ [')']) := by
  simp only [String.data_append, List.append_assoc,
    show "(".data = ['('] from rfl, show ")".data = [')'] from rfl,
    List.singleton_append, List.cons_append, List.nil_append]

theorem dot_data (s t : String) :
    (s ++ "." ++ t).data = s.data ++ '.' :: t.data := by
  simp only [String.data_append, List.append_assoc,
    show ".".data = ['.'] from rfl, List.singleton_append, List.cons_append,
    List.nil_append]

theorem parenFree_ne_paren {a b pn : String} (ha : '(' ∉ a.data) :
    a ≠ b ++ "(" ++ pn ++ ")" := by
  intro h
  apply ha
  rw [h, paren_data]
  simp

theorem paren_head_inj_list :
    ∀ (a b u v : List Char), '(' ∉ a → '(' ∉ b →
      a ++ '(' :: u = b ++ '(' :: v → a = b := by
  intro a
  induction a with
  | nil =>
      intro b u v _ hb h
      cases b with
      | nil => rfl
      | cons c b =>
          injection h with h1 h2
          rw [← h1] at hb
          simp at hb
  | cons c a ih =>
      intro b u v ha hb h
      cases b with
      | nil =>
          injection h with h1 h2
          rw [h1] at ha
          simp at ha
      | cons c' b =>
          injection h with h1 h2
          rw [h1]
          rw [ih b u v (fun hm => ha (List.mem_cons_of_mem _ hm))
            (fun hm => hb (List.mem_cons_of_mem _ hm)) h2]

theorem paren_sym_head_inj {a b u v : String}
    (ha : '(' ∉ a.data) (hb : '(' ∉ b.data)
    (h : a ++ "(" ++ u ++ ")" = b ++ "(" ++ v ++ ")") : a = b := by
  have hd := congrArg String.data h
  rw [paren_data, paren_data] at hd
  exact String.ext (paren_head_inj_list _ _ _ _ ha hb hd)

theorem dotted_dotted_ne {mod cname x nm : String} (hnm : '.' ∉ nm.data) :
    (mod ++ "." ++ cname) ++ "." ++ x ≠ mod ++ "." ++ nm := by
  intro h
  apply hnm
  have hd := congrArg String.data h
  rw [dot_data, dot_data, dot_data] at hd
  rw [List.append_assoc] at hd
  have h2 := List.append_cancel_left hd
  rw [List.cons_append] at h2
  injection h2 with _ h3
  rw [← h3]
  simp

theorem dot_parenFree {a b : String} (ha : '(' ∉ a.data) (hb : '(' ∉ b.data) :
    '(' ∉ (a ++ "." ++ b).data := by
  rw [dot_data]
  intro h
  rcases List.mem_append.mp h with h | h
  · exact ha h
  · rcases List.mem_cons.mp h with h | h
    · exact absurd h (by decide)
    · exact hb h

theorem _parse_cls_fold_methods_mem :
    ∀ (items : List ClsItem) (acc : ClsSig) (e : String × FnSig),
      e ∈ (items.foldl _parse_cls_step acc).methods →
      e ∈ acc.methods ∨ ∃ g : FunctionDef, ClsItem.fn g ∈ items ∧ e.1 = g.name := by
  intro items
  induction items with
  | nil => intro acc e he; exact Or.inl he
  | cons it items ih =>
      intro acc e he
      rw [List.foldl_cons] at he
      rcases ih _ e he with h | ⟨g, hg, hge⟩
      · cases it with
        | fn g =>
            simp only [_parse_cls_step] at h
            split at h
            · exact Or.inl h
            · rcases mem_dictInsert h with h' | h'
              · exact Or.inl h'
              · refine Or.inr ⟨g, List.mem_cons_self _ _, ?_⟩
                rw [h']
        | annAssign t => exact Or.inl h
        | other => exact Or.inl h
      · exact Or.inr ⟨g, List.mem_cons_of_mem _ hg, hge⟩

theorem _parse_cls_fold_attrs_mem :
    ∀ (items : List ClsItem) (acc : ClsSig) (a : String),
      a ∈ (items.foldl _parse_cls_step acc).attrs →
      a ∈ acc.attrs ∨ ClsItem.annAssign a ∈ items := by
  intro items
  induction items with
  | nil => intro acc a ha; exact Or.inl ha
  | cons it items ih =>
      intro acc a ha
      rw [List.foldl_cons] at ha
      rcases ih _ a ha with h | h
      · cases it with
        | fn g =>
            simp only [_parse_cls_step] at h
            split at h
            · exact Or.inl h
            · exact Or.inl h
        | annAssign t =>
            simp only [_parse_cls_step] at h
            rcases List.mem_append.mp h with h' | h'
            · exact Or.inl h'
            · simp only [List.mem_singleton] at h'
              rw [h']
              exact Or.inr (List.mem_cons_self _ _)
        | other => exact Or.inl h
      · exact Or.inr (List.mem_cons_of_mem _ h)

theorem _parse_cls_methods_name (cd : ClassDef) (e : String × FnSig)
    (he : e ∈ (_parse_cls cd).methods) :
    ∃ g : FunctionDef, ClsItem.fn g ∈ cd.body ∧ e.1 = g.name := by
  rcases _parse_cls_fold_methods_mem cd.body _ e he with h | h
  · simp at h
  · exact h

theorem _parse_cls_attrs_name (cd : ClassDef) (a : String)
    (ha : a ∈ (_parse_cls cd).attrs) : ClsItem.annAssign a ∈ cd.body := by
  rcases _parse_cls_fold_attrs_mem cd.body _ a ha with h | h
  · simp at h
  · exact h

theorem extract_single_functions_mem (mf : ModFile) (e : String × FnSig)
    (he : e ∈ (extract_api [mf]).functions) :
    ∃ f : FunctionDef, TopStmt.fn f ∈ mf.tree.body ∧
      f.name ∈ discover_public_api mf.tree mf.filename ∧
      e = (mf.mod ++ "." ++ f.name, _parse_fn f) := by
  simp only [extract_api, List.foldl_cons, List.foldl_nil, extract_module] at he
  rcases extract_fold_functions_mem _ _ _ _ _ he with h | hx
  · simp at h
  · exact hx

theorem extract_single_classes_mem (mf : ModFile) (e : String × ClsSig)
    (he : e ∈ (extract_api [mf]).classes) :
    ∃ c : ClassDef, TopStmt.cls c ∈ mf.tree.body ∧
      e = (mf.mod ++ "." ++ c.name, _parse_cls c) := by
  simp only [extract_api, List.foldl_cons, List.foldl_nil, extract_module] at he
  rcases extract_fold_classes_mem _ _ _ _ _ he with h | hx
  · simp at h
  · exact hx

theorem _diff_fn_symbol_shape (sym : String) (o w : FnSig) :
    ∀ c ∈ _diff_fn sym o w,
      c.symbol = sym ∨ ∃ pn, c.symbol = sym ++ "(" ++ pn ++ ")" := by
  intro c hc
  rcases _diff_fn_mem_char sym o w c hc with
    ⟨n, p, _, _, rfl⟩ | ⟨n, p, q, _, _, _, rfl⟩ | ⟨n, p, q, _, _, _, rfl⟩ |
    ⟨n, p, q, _, _, _, rfl⟩ | ⟨n, q, _, _, rfl⟩ | ⟨_, rfl⟩
  · exact Or.inr ⟨n, rfl⟩
  · exact Or.inr ⟨n, rfl⟩
  · exact Or.inr ⟨n, rfl⟩
  · exact Or.inr ⟨n, rfl⟩
  · exact Or.inr ⟨n, rfl⟩
  · exact Or.inl rfl

theorem _diff_cls_symbol_shape (sym : String) (o w : ClsSig) :
    ∀ c ∈ _diff_cls sym o w,
      (∃ a, a ∈ o.attrs ∧ c.symbol = sym ++ "." ++ a)
      ∨ (∃ m, ((∃ sig, (m, sig) ∈ o.methods) ∨ (∃ sig, (m, sig) ∈ w.methods)) ∧
          (c.symbol = sym ++ "." ++ m ∨
            ∃ pn, c.symbol = (sym ++ "." ++ m) ++ "(" ++ pn ++ ")")) := by
  intro c hc
  simp only [_diff_cls] at hc
  rcases List.mem_append.mp hc with hc | hc
  · rcases List.mem_append.mp hc with hc | hc
    · obtain ⟨a, ha, hca⟩ := List.mem_filterMap.mp hc
      by_cases h : a ∈ w.attrs
      · rw [if_pos h] at hca
        simp at hca
      · rw [if_neg h] at hca
        injection hca with hca
        exact Or.inl ⟨a, ha, by rw [← hca]; rfl⟩
    · obtain ⟨e, he, hce⟩ := List.mem_flatMap.mp hc
      cases hq : dictLookup w.methods e.1 with
      | none =>
          rw [hq] at hce
          simp only [List.mem_singleton] at hce
          exact Or.inr ⟨e.1, Or.inl ⟨e.2, by rw [Prod.mk.eta]; exact he⟩,
            Or.inl (by rw [hce]; rfl)⟩
      | some v =>
          rw [hq] at hce
          rcases _diff_fn_symbol_shape _ _ _ c hce with h | ⟨pn, hpn⟩
          · exact Or.inr ⟨e.1, Or.inl ⟨e.2, by rw [Prod.mk.eta]; exact he⟩,
              Or.inl h⟩
          · exact Or.inr ⟨e.1, Or.inl ⟨e.2, by rw [Prod.mk.eta]; exact he⟩,
              Or.inr ⟨pn, hpn⟩⟩
  · obtain ⟨e, he, hce⟩ := List.mem_filterMap.mp hc
    by_cases h : dictLookup o.methods e.1 = none
    · rw [if_pos h] at hce
      injection hce with hce
      exact Or.inr ⟨e.1, Or.inr ⟨e.2, by rw [Prod.mk.eta]; exact he⟩,
        Or.inl (by rw [← hce]; rfl)⟩
    · rw [if_neg h] at hce
      simp at hce

theorem diff_api_symbol_shape (o n : ApiSurface) :
    ∀ c ∈ diff_api o n,
      (∃ k, ((∃ v, (k, v) ∈ o.functions) ∨ (∃ v, (k, v) ∈ n.functions)) ∧
        (c.symbol = k ∨ ∃ pn, c.symbol = k ++ "(" ++ pn ++ ")"))
      ∨ (∃ k cs, ((k, cs) ∈ o.classes ∨ (k, cs) ∈ n.classes) ∧
          (c.symbol = k
            ∨ (∃ x, (x ∈ cs.attrs ∨ ∃ sig, (x, sig) ∈ cs.methods) ∧
                c.symbol = k ++ "." ++ x)
            ∨ (∃ m sig pn, (m, sig) ∈ cs.methods ∧
                c.symbol = (k ++ "." ++ m) ++ "(" ++ pn ++ ")"))) := by
  intro c hc
  simp only [diff_api] at hc
  rcases List.mem_append.mp hc with hc | hc
  · rcases List.mem_append.mp hc with hc | hc
    · rcases List.mem_append.mp hc with hc | hc
      · obtain ⟨e, he, hce⟩ := List.mem_flatMap.mp hc
        have hm : ∃ v, (e.1, v) ∈ o.functions := ⟨e.2, by rw [Prod.mk.eta]; exact he⟩
        cases hq : dictLookup n.functions e.1 with
        | none =>
            rw [hq] at hce
            simp only [List.mem_singleton] at hce
            exact Or.inl ⟨e.1, Or.inl hm, Or.inl (by rw [hce]; rfl)⟩
        | some v =>
            rw [hq] at hce
            rcases _diff_fn_symbol_shape _ _ _ c hce with h | ⟨pn, hpn⟩
            · exact Or.inl ⟨e.1, Or.inl hm, Or.inl h⟩
            · exact Or.inl ⟨e.1, Or.inl hm, Or.inr ⟨pn, hpn⟩⟩
      · obtain ⟨e, he, hce⟩ := List.mem_filterMap.mp hc
        by_cases h : dictLookup o.functions e.1 = none
        · rw [if_pos h] at hce
          injection hce with hce
          exact Or.inl ⟨e.1, Or.inr ⟨e.2, by rw [Prod.mk.eta]; exact he⟩,
            Or.inl (by rw [← hce]; rfl)⟩
        · rw [if_neg h] at hce
          simp at hce
    · obtain ⟨e, he, hce⟩ := List.mem_flatMap.mp hc
      have hmo : (e.1, e.2) ∈ o.classes := by rw [Prod.mk.eta]; exact he
      cases hq : dictLookup n.classes e.1 with
      | none =>
          rw [hq] at hce
          simp only [List.mem_singleton] at hce
          exact Or.inr ⟨e.1, e.2, Or.inl hmo, Or.inl (by rw [hce]; rfl)⟩
      | some v =>
          rw [hq] at hce
          have hmn : (e.1, v) ∈ n.classes := mem_of_dictLookup_eq_some hq
          rcases _diff_cls_symbol_shape _ _ _ c hce with
            ⟨a, ha, hsym⟩ | ⟨m, hm, hsym⟩
          · exact Or.inr ⟨e.1, e.2, Or.inl hmo,
              Or.inr (Or.inl ⟨a, Or.inl ha, hsym⟩)⟩
          · rcases hm with ⟨sig, hsig⟩ | ⟨sig, hsig⟩
            · rcases hsym with h | ⟨pn, hpn⟩
              · exact Or.inr ⟨e.1, e.2, Or.inl hmo,
                  Or.inr (Or.inl ⟨m, Or.inr ⟨sig, hsig⟩, h⟩)⟩
              · exact Or.inr ⟨e.1, e.2, Or.inl hmo,
                  Or.inr (Or.inr ⟨m, sig, pn, hsig, hpn⟩)⟩
            · rcases hsym with h | ⟨pn, hpn⟩
              · exact Or.inr ⟨e.1, v, Or.inr hmn,
                  Or.inr (Or.inl ⟨m, Or.inr ⟨sig, hsig⟩, h⟩)⟩
              · exact Or.inr ⟨e.1, v, Or.inr hmn,
                  Or.inr (Or.inr ⟨m, sig, pn, hsig, hpn⟩)⟩
  · obtain ⟨e, he, hce⟩ := List.mem_filterMap.mp hc
    by_cases h : dictLookup o.classes e.1 = none
    · rw [if_pos h] at hce
      injection hce with hce
      exact Or.inr ⟨e.1, e.2, Or.inr (by rw [Prod.mk.eta]; exact he),
        Or.inl (by rw [← hce]; rfl)⟩
    · rw [if_neg h] at hce
      simp at hce

/-- C4 (amended): a top-level function name all of whose declarations
carry the ignore directive — and that no class declaration and no
relative-import re-export of the module also binds — contributes no entry
to either single-module snapshot, and no Change of `diff_api` over the two
snapshots carries its qualified symbol, neither the bare `mod.name` nor
any parameter symbol `mod.name(param)`, even when an export list names
it. The guarantee cannot extend to classes: the non-underscore fallback
of `extract_api` line 24 overrides the directive (see the
counterexample). -/
theorem ignored_function_never_in_diff (mod fname : String) (told tnew : Module)
    (nm : String)
    (hmod : '(' ∉ mod.data) (hnm1 : '(' ∉ nm.data) (hnm2 : '.' ∉ nm.data)
    (hwo : ModuleOK told = true) (hwn : ModuleOK tnew = true)
    (h1 : ∀ f : FunctionDef, TopStmt.fn f ∈ told.body → f.name = nm →
      f.directive = Directive.ignoreDir)
    (h2 : ∀ f : FunctionDef, TopStmt.fn f ∈ tnew.body → f.name = nm →
      f.directive = Directive.ignoreDir)
    (h3 : ∀ c : ClassDef, TopStmt.cls c ∈ told.body → c.name ≠ nm)
    (h4 : ∀ c : ClassDef, TopStmt.cls c ∈ tnew.body → c.name ≠ nm)
    (h5 : ∀ (rel : Bool) (ns : List String) (d : Directive),
      TopStmt.importFrom rel ns d ∈ told.body → nm ∉ ns)
    (h6 : ∀ (rel : Bool) (ns : List String) (d : Directive),
      TopStmt.importFrom rel ns d ∈ tnew.body → nm ∉ ns) :
    ∀ c ∈ diff_api (extract_api [⟨mod, fname, told⟩])
        (extract_api [⟨mod, fname, tnew⟩]),
      c.symbol ≠ mod ++ "." ++ nm ∧
      ∀ pn, c.symbol ≠ mod ++ "." ++ nm ++ "(" ++ pn ++ ")" := by
  have hkeyparen : '(' ∉ (mod ++ "." ++ nm).data := dot_parenFree hmod hnm1
  have hfun : ∀ (tr : Module), ModuleOK tr = true →
      ∀ (k : String) (v : FnSig),
        (k, v) ∈ (extract_api [⟨mod, fname, tr⟩]).functions → '(' ∉ k.data := by
    intro tr hok k v hv
    obtain ⟨f', hf', _, hfe⟩ := extract_single_functions_mem _ _ hv
    have hk : k = mod ++ "." ++ f'.name := by simpa using congrArg Prod.fst hfe
    rw [hk]
    have h' := topStmtOK_of_mem hok hf'
    simp only [topStmtOK] at h'
    exact dot_parenFree hmod ((parenFreeB_iff _).mp h')
  have hfabs : ∀ (tr : Module),
      (∀ f : FunctionDef, TopStmt.fn f ∈ tr.body → f.name = nm →
        f.directive = Directive.ignoreDir) →
      (∀ c' : ClassDef, TopStmt.cls c' ∈ tr.body → c'.name ≠ nm) →
      (∀ (rel : Bool) (ns : List String) (d : Directive),
        TopStmt.importFrom rel ns d ∈ tr.body → nm ∉ ns) →
      ∀ v : FnSig,
        (mod ++ "." ++ nm, v) ∉ (extract_api [⟨mod, fname, tr⟩]).functions := by
    intro tr ha hb hcimp v hv
    obtain ⟨f', hf', hfp, hfe⟩ := extract_single_functions_mem _ _ hv
    have hk : mod ++ "." ++ nm = mod ++ "." ++ f'.name := by
      simpa using congrArg Prod.fst hfe
    rw [← append_dot_inj hk] at hfp
    exact not_mem_discover tr fname nm ha hb hcimp hfp
  have hclass : ∀ (tr : Module), ModuleOK tr = true →
      (∀ c' : ClassDef, TopStmt.cls c' ∈ tr.body → c'.name ≠ nm) →
      ∀ (k : String) (cs : ClsSig),
        (k, cs) ∈ (extract_api [⟨mod, fname, tr⟩]).classes →
        '(' ∉ k.data ∧ k ≠ mod ++ "." ++ nm ∧
        ∀ x, (x ∈ cs.attrs ∨ ∃ sig, (x, sig) ∈ cs.methods) →
          '(' ∉ x.data ∧ k ++ "." ++ x ≠ mod ++ "." ++ nm := by
    intro tr hok hnocls k cs hv
    obtain ⟨c', hc', hce⟩ := extract_single_classes_mem _ _ hv
    have hk : k = mod ++ "." ++ c'.name := by simpa using congrArg Prod.fst hce
    have hcs : cs = _parse_cls c' := by simpa using congrArg Prod.snd hce
    have hok' := topStmtOK_of_mem hok hc'
    simp only [topStmtOK, Bool.and_eq_true] at hok'
    have hcp : '(' ∉ c'.name.data := (parenFreeB_iff _).mp hok'.1
    have hitem : ∀ it ∈ c'.body, clsItemOK it = true := List.all_eq_true.mp hok'.2
    refine ⟨by rw [hk]; exact dot_parenFree hmod hcp, ?_, ?_⟩
    · rw [hk]
      intro he
      exact hnocls c' hc' (append_dot_inj he)
    · intro x hxmem
      have hxp : '(' ∉ x.data := by
        rcases hxmem with hxa | ⟨sig, hxm⟩
        · rw [hcs] at hxa
          have h' := hitem _ (_parse_cls_attrs_name c' x hxa)
          simp only [clsItemOK] at h'
          exact (parenFreeB_iff _).mp h'
        · rw [hcs] at hxm
          obtain ⟨g, hg, hgn⟩ := _parse_cls_methods_name c' (x, sig) hxm
          have h' := hitem _ hg
          simp only [clsItemOK] at h'
          have hx' : x = g.name := hgn
          rw [hx']
          exact (parenFreeB_iff _).mp h'
      refine ⟨hxp, ?_⟩
      rw [hk]
      exact dotted_dotted_ne hnm2
  intro c hc
  rcases diff_api_symbol_shape _ _ c hc with
    ⟨k, hkmem, hshape⟩ | ⟨k, cs, hkmem, hshape⟩
  · have hkp : '(' ∉ k.data := by
      rcases hkmem with ⟨v, hv⟩ | ⟨v, hv⟩
      · exact hfun told hwo k v hv
      · exact hfun tnew hwn k v hv
    have hkne : k ≠ mod ++ "." ++ nm := by
      intro he
      rcases hkmem with ⟨v, hv⟩ | ⟨v, hv⟩
      · exact hfabs told h1 h3 h5 v (he ▸ hv)
      · exact hfabs tnew h2 h4 h6 v (he ▸ hv)
    constructor
    · rcases hshape with h | ⟨pn', hpn'⟩
      · rw [h]
        exact hkne
      · rw [hpn']
        intro he
        apply hkeyparen
        rw [← he, paren_data]
        simp
    · intro pn
      rcases hshape with h | ⟨pn', hpn'⟩
      · rw [h]
        exact parenFree_ne_paren hkp
      · rw [hpn']
        intro he
        exact hkne (paren_sym_head_inj hkp hkeyparen he)
  · have hP : '(' ∉ k.data ∧ k ≠ mod ++ "." ++ nm ∧
        ∀ x, (x ∈ cs.attrs ∨ ∃ sig, (x, sig) ∈ cs.methods) →
          '(' ∉ x.data ∧ k ++ "." ++ x ≠ mod ++ "." ++ nm := by
      rcases hkmem with hmo | hmn
      · exact hclass told hwo h3 k cs hmo
      · exact hclass tnew hwn h4 k cs hmn
    obtain ⟨hkp, hkne, hx⟩ := hP
    rcases hshape with h | ⟨x, hxmem, hsym⟩ | ⟨m, sig, pn', hmmem, hsym⟩
    · constructor
      · rw [h]
        exact hkne
      · intro pn
        rw [h]
        exact parenFree_ne_paren hkp
    · obtain ⟨hxp, hxne⟩ := hx x hxmem
      constructor
      · rw [hsym]
        exact hxne
      · intro pn
        rw [hsym]
        exact parenFree_ne_paren (dot_parenFree hkp hxp)
    · obtain ⟨hmp, hmne⟩ := hx m (Or.inr ⟨sig, hmmem⟩)
      constructor
      · rw [hsym]
        intro he
        apply hkeyparen
        rw [← he, paren_data]
        simp
      · intro pn
        rw [hsym]
        intro he
        exact hmne (paren_sym_head_inj (dot_parenFree hkp hmp) hkeyparen he)

/-- Counterexample to C4 as stated: a class `Foo` carrying the ignore
directive (and even listed in the export list) is excluded by Surface
Discovery but re-inserted by the non-underscore fallback, so its removal
is reported and its symbol `m.Foo` appears in a Change emitted by
`diff_api` over the extracted snapshots. -/
theorem ignored_class_symbol_in_diff :
    (⟨"class_removed", "m.Foo", "Removed: m.Foo", "major"⟩ : Change) ∈
      diff_api
        (extract_api [⟨"m", "m.py", ⟨[TopStmt.exportList ["Foo"],
          TopStmt.cls ⟨"Foo", [], .ignoreDir⟩]⟩⟩])
        (extract_api [⟨"m", "m.py", ⟨[TopStmt.exportList ["Foo"]]⟩⟩]) := by
  decide

/-- Witness for C4 (amended): an ignored function `experimental` listed in
the export list, beside a `stable` function whose return annotation
changes; the resulting change does not carry the ignored symbol. -/
theorem ignored_function_never_in_diff_witness :
    Change.symbol ⟨"return_type_changed", "m.stable", "Return: str -> int", "major"⟩
      ≠ "m" ++ "." ++ "experimental" :=
  (ignored_function_never_in_diff "m" "m.py"
    ⟨[TopStmt.exportList ["stable", "experimental"],
      TopStmt.fn ⟨"stable", ⟨[], [], [], none, none⟩, some "str", .noDir⟩,
      TopStmt.fn ⟨"experimental", ⟨[], [], [], none, none⟩, some "str", .ignoreDir⟩]⟩
    ⟨[TopStmt.exportList ["stable"],
      TopStmt.fn ⟨"stable", ⟨[], [], [], none, none⟩, some "int", .noDir⟩]⟩
    "experimental"
    (by decide) (by decide) (by decide) (by decide) (by decide)
    (by
      intro f hf hn
      simp at hf
      rcases hf with rfl | rfl
      · exact absurd hn (by decide)
      · rfl)
    (by
      intro f hf hn
      simp at hf
      rcases hf with rfl
      exact absurd hn (by decide))
    (by
      intro c hcm
      simp at hcm)
    (by
      intro c hcm
      simp at hcm)
    (by
      intro rel ns d him
      simp at him)
    (by
      intro rel ns d him
      simp at him)
    ⟨"return_type_changed", "m.stable", "Return: str -> int", "major"⟩
    (by decide)).1

end BreakCheck
